import Mathlib

/-!
Verification of the rent ledger & allocation engine of the `rcms` repository.

The engine lives in the Appwrite function `allocateRentPayment` (the current
handler, with reversal guards) and in the client-side preview helpers
(`previewAllocation`, `buildPaidByMonth`, `buildMonthSeries`,
`buildRentByMonth`).  JavaScript numbers are modelled as exact rationals
(`ℚ`); JavaScript objects keyed by month strings are modelled as
insertion-ordered association lists (`AMap`); JSON payloads that the code
parses defensively are modelled as already-parsed optional values (parse
failure = `none`).  String comparison (`localeCompare` / `<=` on month keys
and ISO dates) is modelled as code-unit lexicographic comparison, which is
what JavaScript performs on ASCII strings.
-/

/-- Code-unit lexicographic `≤` on character lists, mirroring JavaScript
string comparison for ASCII strings. -/
def charListLe : List Char → List Char → Bool
  | [], _ => true
  | _ :: _, [] => false
  | a :: as, b :: bs =>
    if a.toNat < b.toNat then true
    else if b.toNat < a.toNat then false
    else charListLe as bs

/-- JavaScript `a <= b` on strings (code-unit lexicographic order). -/
def strLe (a b : String) : Bool := charListLe a.data b.data

/-- JavaScript `a < b` on strings. -/
def strLt (a b : String) : Bool := strLe a b && !(strLe b a)

theorem charListLe_total (a b : List Char) : charListLe a b = true ∨ charListLe b a = true := by
  induction a generalizing b with
  | nil => left; rfl
  | cons x xs ih =>
    cases b with
    | nil => right; rfl
    | cons y ys =>
      by_cases hxy : x.toNat < y.toNat
      · left; simp [charListLe, hxy]
      · by_cases hyx : y.toNat < x.toNat
        · right; simp [charListLe, hyx, hxy]
        · have := ih ys
          rcases this with h | h
          · left; simpa [charListLe, hxy, hyx] using h
          · right; simpa [charListLe, hxy, hyx, Nat.lt_asymm] using h

theorem charListLe_trans {a b c : List Char} (hab : charListLe a b = true)
    (hbc : charListLe b c = true) : charListLe a c = true := by
  induction a generalizing b c with
  | nil => rfl
  | cons x xs ih =>
    cases b with
    | nil => simp [charListLe] at hab
    | cons y ys =>
      cases c with
      | nil => simp [charListLe] at hbc
      | cons z zs =>
        by_cases hxy : x.toNat < y.toNat
        · by_cases hyz : y.toNat < z.toNat
          · have hxz : x.toNat < z.toNat := Nat.lt_trans hxy hyz
            simp [charListLe, hxz]
          · by_cases hzy : z.toNat < y.toNat
            · simp [charListLe, hyz, hzy] at hbc
            · have hyz' : y.toNat = z.toNat := Nat.le_antisymm (Nat.le_of_not_lt hzy) (Nat.le_of_not_lt hyz)
              have hxz : x.toNat < z.toNat := hyz' ▸ hxy
              simp [charListLe, hxz]
        · by_cases hyx : y.toNat < x.toNat
          · simp [charListLe, hxy, hyx] at hab
          · have hxy' : x.toNat = y.toNat := Nat.le_antisymm (Nat.le_of_not_lt hyx) (Nat.le_of_not_lt hxy)
            simp only [charListLe, hxy, hyx, if_false] at hab
            by_cases hyz : y.toNat < z.toNat
            · have hxz : x.toNat < z.toNat := hxy' ▸ hyz
              simp [charListLe, hxz]
            · by_cases hzy : z.toNat < y.toNat
              · simp [charListLe, hyz, hzy] at hbc
              · have hyz' : y.toNat = z.toNat := Nat.le_antisymm (Nat.le_of_not_lt hzy) (Nat.le_of_not_lt hyz)
                simp only [charListLe, hyz, hzy, if_false] at hbc
                have hxz : ¬ x.toNat < z.toNat := by omega
                have hzx : ¬ z.toNat < x.toNat := by omega
                simp only [charListLe, hxz, hzx, if_false]
                exact ih hab hbc

theorem charListLe_antisymm {a b : List Char} (hab : charListLe a b = true)
    (hba : charListLe b a = true) : a = b := by
  induction a generalizing b with
  | nil =>
    cases b with
    | nil => rfl
    | cons y ys => simp [charListLe] at hba
  | cons x xs ih =>
    cases b with
    | nil => simp [charListLe] at hab
    | cons y ys =>
      by_cases hxy : x.toNat < y.toNat
      · have hyx : ¬ y.toNat < x.toNat := Nat.lt_asymm hxy
        simp [charListLe, hxy, hyx] at hba
      · by_cases hyx : y.toNat < x.toNat
        · simp [charListLe, hxy, hyx] at hab
        · have hxy' : x.toNat = y.toNat := Nat.le_antisymm (Nat.le_of_not_lt hyx) (Nat.le_of_not_lt hxy)
          have hx : x = y := by
            have := congrArg Char.ofNat hxy'
            simpa [Char.ofNat_toNat] using this
          simp only [charListLe, hxy, hyx, if_false] at hab hba
          have := ih hab hba
          rw [hx, this]

theorem strLe_total (a b : String) : strLe a b = true ∨ strLe b a = true :=
  charListLe_total a.data b.data

theorem strLe_trans {a b c : String} (hab : strLe a b = true) (hbc : strLe b c = true) :
    strLe a c = true := charListLe_trans hab hbc

theorem strLe_antisymm {a b : String} (hab : strLe a b = true) (hba : strLe b a = true) :
    a = b := by
  cases a; cases b
  exact congrArg String.mk (charListLe_antisymm hab hba)

theorem strLe_refl (a : String) : strLe a a = true := by
  rcases strLe_total a a with h | h <;> exact h

/-- Association list standing for a JavaScript object with string keys:
entries appear in key insertion order, keys are unique when built by the
operations below. -/
def AMap := List (String × ℚ)

instance : DecidableEq AMap := inferInstanceAs (DecidableEq (List (String × ℚ)))

instance : Membership (String × ℚ) AMap :=
  inferInstanceAs (Membership (String × ℚ) (List (String × ℚ)))

/-- `m[k]` on a JavaScript object: the value at `k`, if present. -/
def amLookup : AMap → String → Option ℚ
  | [], _ => none
  | kv :: rest, k => if kv.1 = k then some kv.2 else amLookup rest k

/-- `m[k] ?? 0`. -/
def amGet (m : AMap) (k : String) : ℚ := (amLookup m k).getD 0

/-- `m[k] = v`: overwrite in place if the key exists, else append. -/
def amSet : AMap → String → ℚ → AMap
  | [], k, v => [(k, v)]
  | kv :: rest, k, v => if kv.1 = k then (k, v) :: rest else kv :: amSet rest k v

/-- `m[k] = (m[k] ?? 0) + v`. -/
def amAdd (m : AMap) (k : String) (v : ℚ) : AMap := amSet m k (amGet m k + v)

/-- Keys of the object, in insertion order. -/
def amKeys (m : AMap) : List String := m.map Prod.fst

/-- Sum of the object's values (`Object.values(m).reduce((s, v) => s + v, 0)`). -/
def amValuesSum (m : AMap) : ℚ := (m.map Prod.snd).sum

theorem mem_amKeys_cons {kv : String × ℚ} {rest : List (String × ℚ)} {k : String} :
    k ∈ amKeys (kv :: rest) ↔ k = kv.1 ∨ k ∈ amKeys rest := by
  simp [amKeys]

theorem amLookup_amSet (m : AMap) (k k' : String) (v : ℚ) :
    amLookup (amSet m k v) k' = if k = k' then some v else amLookup m k' := by
  induction m with
  | nil => by_cases h : k = k' <;> simp [amSet, amLookup, h]
  | cons kv rest ih =>
    by_cases h1 : kv.1 = k
    · by_cases h2 : k = k'
      · simp only [amSet, h1, if_true, amLookup, h2, if_pos rfl]
      · have h3 : kv.1 ≠ k' := by rw [h1]; exact h2
        simp only [amSet, h1, if_true, amLookup]
        simp [h2, h3]
    · by_cases h2 : kv.1 = k'
      · have h3 : ¬ k = k' := by intro h; rw [h] at h1; exact h1 h2
        simp only [amSet, h1, if_false, amLookup, h2, if_true, if_neg h3]
        rw [if_neg (fun h => h3 h.symm)]
        simp [amLookup, h2]
      · simp only [amSet, h1, if_false, amLookup, h2, if_false, ih]

theorem amKeys_amSet (m : AMap) (k : String) (v : ℚ) :
    amKeys (amSet m k v) = if k ∈ amKeys m then amKeys m else amKeys m ++ [k] := by
  induction m with
  | nil => simp [amSet, amKeys]
  | cons kv rest ih =>
    by_cases h1 : kv.1 = k
    · simp only [amSet, h1, if_true]
      rw [if_pos (mem_amKeys_cons.mpr (Or.inl h1.symm))]
      simp [amKeys, h1]
    · have hcons : amKeys (kv :: amSet rest k v) = kv.1 :: amKeys (amSet rest k v) := rfl
      have hcons' : amKeys (kv :: rest) = kv.1 :: amKeys rest := rfl
      by_cases h2 : k ∈ amKeys rest
      · have hk : k ∈ amKeys (kv :: rest) := mem_amKeys_cons.mpr (Or.inr h2)
        simp only [amSet, h1, if_false]
        rw [if_pos hk, hcons, hcons', ih, if_pos h2]
      · have hk : k ∉ amKeys (kv :: rest) := by
          rw [mem_amKeys_cons]
          push_neg
          exact ⟨fun h => h1 h.symm, h2⟩
        simp only [amSet, h1, if_false]
        rw [if_neg hk, hcons, hcons', ih, if_neg h2]
        rfl

theorem amLookup_eq_none_of_not_mem_keys {m : AMap} {k : String} (h : k ∉ amKeys m) :
    amLookup m k = none := by
  induction m with
  | nil => rfl
  | cons kv rest ih =>
    rw [mem_amKeys_cons] at h
    push_neg at h
    have h1 : kv.1 ≠ k := fun hh => h.1 hh.symm
    simp only [amLookup, h1, if_false]
    exact ih h.2

/-- `Number.EPSILON`. -/
def jsEps : ℚ := 1 / 4503599627370496

/-- `roundMoney` from the allocation function:
`Math.round((Number(value) + Number.EPSILON) * 100) / 100`, with JavaScript
`Math.round x = ⌊x + 1/2⌋`. -/
def roundMoney (v : ℚ) : ℚ := (Rat.floor ((v + jsEps) * 100 + 1/2) : ℚ) / 100

theorem ratFloor_eq_intFloor (q : ℚ) : Rat.floor q = ⌊q⌋ := by
  rw [Rat.floor_def', Rat.floor_def]

/-- `roundMoney` is the identity on exact multiples of a cent. -/
theorem roundMoney_cents (n : ℤ) : roundMoney ((n : ℚ) / 100) = (n : ℚ) / 100 := by
  have h : ((n : ℚ) / 100 + jsEps) * 100 + 1/2 = (n : ℚ) + (jsEps * 100 + 1/2) := by
    field_simp
    ring
  have hb : (0 : ℚ) ≤ jsEps * 100 + 1/2 ∧ jsEps * 100 + 1/2 < 1 := by
    constructor <;> norm_num [jsEps]
  have hfloor : Rat.floor (((n : ℚ) / 100 + jsEps) * 100 + 1/2) = n := by
    rw [ratFloor_eq_intFloor, h]
    rw [add_comm]
    rw [Int.floor_add_int]
    have : ⌊jsEps * 100 + 1/2⌋ = 0 := Int.floor_eq_zero_iff.mpr ⟨hb.1, hb.2⟩
    omega
  rw [roundMoney, hfloor]

/-- `roundMoney` of an integer value is that value. -/
theorem roundMoney_int (n : ℤ) : roundMoney (n : ℚ) = n := by
  have h := roundMoney_cents (n * 100)
  have e : ((n * 100 : ℤ) : ℚ) / 100 = (n : ℚ) := by
    push_cast
    ring
  rw [e] at h
  exact h

/-- `allocatePayment` from the server function (also the shape of the client
`previewAllocation` loop): ascending waterfall over `months`, no rounding.
One `forEach` iteration. -/
def allocStep (paidByMonth rentByMonth : AMap) (st : AMap × ℚ) (month : String) : AMap × ℚ :=
  if st.2 ≤ 0 then st
  else
    let paid := amGet paidByMonth month
    let rent := amGet rentByMonth month
    let due := max (rent - paid) 0
    if due ≤ 0 then st
    else
      let applied := min due st.2
      (amSet st.1 month applied, st.2 - applied)

/-- `allocatePayment({amount, months, paidByMonth, rentByMonth})` from the
server function: returns `(allocation, remaining)`. -/
def allocatePayment (amount : ℚ) (months : List String) (paidByMonth rentByMonth : AMap) :
    AMap × ℚ :=
  months.foldl (allocStep paidByMonth rentByMonth) ([], amount)

theorem amValuesSum_amSet_new {m : AMap} {k : String} (v : ℚ) (h : k ∉ amKeys m) :
    amValuesSum (amSet m k v) = amValuesSum m + v := by
  induction m with
  | nil => simp [amSet, amValuesSum]
  | cons kv rest ih =>
    rw [mem_amKeys_cons] at h
    push_neg at h
    have h1 : kv.1 ≠ k := fun hh => h.1 hh.symm
    simp only [amSet, h1, if_false]
    have : amValuesSum (kv :: amSet rest k v) = kv.2 + amValuesSum (amSet rest k v) := by
      simp [amValuesSum]
    rw [this, ih h.2]
    have : amValuesSum (kv :: rest) = kv.2 + amValuesSum rest := by
      simp [amValuesSum]
    rw [this]
    ring

theorem amKeys_allocStep_subset (paidByMonth rentByMonth : AMap) (st : AMap × ℚ) (month : String) :
    ∀ k ∈ amKeys (allocStep paidByMonth rentByMonth st month).1, k ∈ amKeys st.1 ∨ k = month := by
  intro k hk
  unfold allocStep at hk
  by_cases h1 : st.2 ≤ 0
  · simp [h1] at hk; exact Or.inl hk
  · simp only [h1, if_false] at hk
    by_cases h2 : max (amGet rentByMonth month - amGet paidByMonth month) 0 ≤ 0
    · simp [h2] at hk; exact Or.inl hk
    · simp only [h2, if_false] at hk
      rw [amKeys_amSet] at hk
      by_cases h3 : month ∈ amKeys st.1
      · simp [h3] at hk; exact Or.inl hk
      · simp [h3] at hk
        rcases hk with hk | hk
        · exact Or.inl hk
        · exact Or.inr hk

/-- Keys of the running allocation stay inside the processed months. -/
theorem amKeys_allocFold_subset (paidByMonth rentByMonth : AMap) (months : List String)
    (st : AMap × ℚ) :
    ∀ k ∈ amKeys (months.foldl (allocStep paidByMonth rentByMonth) st).1,
      k ∈ amKeys st.1 ∨ k ∈ months := by
  induction months generalizing st with
  | nil => intro k hk; exact Or.inl hk
  | cons m rest ih =>
    intro k hk
    simp only [List.foldl_cons] at hk
    rcases ih (allocStep paidByMonth rentByMonth st m) k hk with h | h
    · rcases amKeys_allocStep_subset paidByMonth rentByMonth st m k h with h' | h'
      · exact Or.inl h'
      · exact Or.inr (by simp [h'])
    · exact Or.inr (by simp [h])

/-- Conservation of the fold, provided the months processed are distinct and
none of them is already a key of the accumulator. -/
theorem allocFold_conservation (paidByMonth rentByMonth : AMap) (months : List String)
    (st : AMap × ℚ) (hnd : months.Nodup) (hdisj : ∀ m ∈ months, m ∉ amKeys st.1) :
    amValuesSum (months.foldl (allocStep paidByMonth rentByMonth) st).1 +
      (months.foldl (allocStep paidByMonth rentByMonth) st).2 = amValuesSum st.1 + st.2 := by
  induction months generalizing st with
  | nil => rfl
  | cons m rest ih =>
    simp only [List.foldl_cons]
    have hnd' : rest.Nodup := (List.nodup_cons.mp hnd).2
    have hm : m ∉ rest := (List.nodup_cons.mp hnd).1
    have hstep : amValuesSum (allocStep paidByMonth rentByMonth st m).1 +
        (allocStep paidByMonth rentByMonth st m).2 = amValuesSum st.1 + st.2 := by
      unfold allocStep
      by_cases h1 : st.2 ≤ 0
      · simp [h1]
      · simp only [h1, if_false]
        by_cases h2 : max (amGet rentByMonth m - amGet paidByMonth m) 0 ≤ 0
        · simp [h2]
        · simp only [h2, if_false]
          have hmk : m ∉ amKeys st.1 := hdisj m (by simp)
          rw [amValuesSum_amSet_new _ hmk]
          ring
    have hdisj' : ∀ x ∈ rest, x ∉ amKeys (allocStep paidByMonth rentByMonth st m).1 := by
      intro x hx hxk
      rcases amKeys_allocStep_subset paidByMonth rentByMonth st m x hxk with h | h
      · exact hdisj x (by simp [hx]) h
      · rw [h] at hx; exact hm hx
    rw [ih (allocStep paidByMonth rentByMonth st m) hnd' hdisj', hstep]

/--
C1 (amended): for a duplicate-free month list, the sum of the allocation
values plus the returned remaining equals the input amount exactly.
-/
theorem allocatePayment_conservation (amount : ℚ) (months : List String)
    (paidByMonth rentByMonth : AMap) (hnd : months.Nodup) :
    amValuesSum (allocatePayment amount months paidByMonth rentByMonth).1 +
      (allocatePayment amount months paidByMonth rentByMonth).2 = amount := by
  have h := allocFold_conservation paidByMonth rentByMonth months ([], amount) hnd
    (by intro m _ h; simp [amKeys] at h)
  simpa [allocatePayment, amValuesSum] using h

/--
C1 (counterexample): with a month list that repeats a month, conservation
fails: amount 300 over months `["2024-01", "2024-01"]` with rent 100 yields
allocation `{2024-01: 100}` and remaining 100, and `100 + 100 ≠ 300`.
-/
theorem allocatePayment_conservation_cex :
    amValuesSum (allocatePayment 300 ["2024-01", "2024-01"] [] [("2024-01", 100)]).1 +
      (allocatePayment 300 ["2024-01", "2024-01"] [] [("2024-01", 100)]).2 ≠ 300 := by
  have h : allocatePayment 300 ["2024-01", "2024-01"] [] [("2024-01", 100)] =
      ([("2024-01", 100)], 100) := by
    simp [allocatePayment, allocStep, amGet, amLookup, amSet]
    norm_num
  rw [h]
  simp [amValuesSum]
  norm_num

/--
C1 (witness): conservation at a concrete duplicate-free input.
-/
theorem allocatePayment_conservation_witness :
    amValuesSum (allocatePayment 2500 ["2024-01", "2024-02", "2024-03"] []
        [("2024-01", 1000), ("2024-02", 1000), ("2024-03", 1000)]).1 +
      (allocatePayment 2500 ["2024-01", "2024-02", "2024-03"] []
        [("2024-01", 1000), ("2024-02", 1000), ("2024-03", 1000)]).2 = 2500 :=
  allocatePayment_conservation 2500 ["2024-01", "2024-02", "2024-03"] []
    [("2024-01", 1000), ("2024-02", 1000), ("2024-03", 1000)] (by decide)

theorem allocStep_of_nonpos (paidByMonth rentByMonth : AMap) (st : AMap × ℚ) (month : String)
    (h : st.2 ≤ 0) : allocStep paidByMonth rentByMonth st month = st := by
  unfold allocStep
  rw [if_pos h]

/-- Once `remaining ≤ 0`, the rest of the month list is a no-op. -/
theorem allocFold_of_nonpos (paidByMonth rentByMonth : AMap) (months : List String)
    (st : AMap × ℚ) (h : st.2 ≤ 0) :
    months.foldl (allocStep paidByMonth rentByMonth) st = st := by
  induction months with
  | nil => rfl
  | cons m rest ih =>
    simp only [List.foldl_cons]
    rw [allocStep_of_nonpos _ _ _ _ h, ih]

/-- A month whose `due` is non-positive is never added as an allocation key. -/
theorem not_mem_amKeys_allocFold (paidByMonth rentByMonth : AMap) (months : List String)
    (st : AMap × ℚ) (m : String) (hm : m ∉ amKeys st.1)
    (hdue : max (amGet rentByMonth m - amGet paidByMonth m) 0 ≤ 0) :
    m ∉ amKeys (months.foldl (allocStep paidByMonth rentByMonth) st).1 := by
  induction months generalizing st with
  | nil => exact hm
  | cons month rest ih =>
    simp only [List.foldl_cons]
    apply ih
    unfold allocStep
    by_cases h1 : st.2 ≤ 0
    · rw [if_pos h1]; exact hm
    · rw [if_neg h1]
      by_cases h2 : max (amGet rentByMonth month - amGet paidByMonth month) 0 ≤ 0
      · rw [if_pos h2]; exact hm
      · rw [if_neg h2]
        simp only
        rw [amKeys_amSet]
        by_cases h3 : month ∈ amKeys st.1
        · rw [if_pos h3]; exact hm
        · rw [if_neg h3]
          intro hmem
          rcases List.mem_append.mp hmem with h | h
          · exact hm h
          · simp at h
            rw [h] at hdue
            exact h2 hdue

/--
C2: forward allocation processes the month list in the order given (the
callers pass `buildMonthSeries`'s ascending list), skips any month whose
`due = max(rent - paid, 0)` is non-positive, and stops applying once the
running remaining has reached 0.  Consequently (a) a month whose due is
non-positive never appears in the allocation map, and (b) if the remaining
is already ≤ 0 after processing the prefix `pre`, then any later month `m2`
not occurring in `pre` is absent from the final allocation map.
-/
theorem allocatePayment_oldest_first (amount : ℚ) (pre post : List String) (m2 : String)
    (paidByMonth rentByMonth : AMap)
    (hrem : (allocatePayment amount pre paidByMonth rentByMonth).2 ≤ 0)
    (hm2 : m2 ∈ post) (hpre : m2 ∉ pre) :
    amLookup (allocatePayment amount (pre ++ post) paidByMonth rentByMonth).1 m2 = none ∧
    ∀ m, max (amGet rentByMonth m - amGet paidByMonth m) 0 ≤ 0 →
      amLookup (allocatePayment amount (pre ++ post) paidByMonth rentByMonth).1 m = none := by
  constructor
  · have hsplit : allocatePayment amount (pre ++ post) paidByMonth rentByMonth =
        allocatePayment amount pre paidByMonth rentByMonth := by
      unfold allocatePayment
      rw [List.foldl_append]
      exact allocFold_of_nonpos _ _ _ _ hrem
    rw [hsplit]
    apply amLookup_eq_none_of_not_mem_keys
    intro hk
    rcases amKeys_allocFold_subset paidByMonth rentByMonth pre ([], amount) m2 hk with h | h
    · simp [amKeys] at h
    · exact hpre h
  · intro m hdue
    apply amLookup_eq_none_of_not_mem_keys
    exact not_mem_amKeys_allocFold paidByMonth rentByMonth (pre ++ post) ([], amount) m
      (by simp [amKeys]) hdue

/--
C2 (witness): with rent 1000 for 2024-01 fully paying out an amount of 1000,
the later month 2024-02 receives nothing.
-/
theorem allocatePayment_oldest_first_witness :
    amLookup (allocatePayment 1000 (["2024-01"] ++ ["2024-02"]) []
      [("2024-01", 1000), ("2024-02", 1000)]).1 "2024-02" = none ∧
    ∀ m, max (amGet [("2024-01", 1000), ("2024-02", 1000)] m - amGet [] m) 0 ≤ 0 →
      amLookup (allocatePayment 1000 (["2024-01"] ++ ["2024-02"]) []
        [("2024-01", 1000), ("2024-02", 1000)]).1 m = none :=
  allocatePayment_oldest_first 1000 ["2024-01"] ["2024-02"] "2024-02" []
    [("2024-01", 1000), ("2024-02", 1000)]
    (by simp +decide [allocatePayment, allocStep, amGet, amLookup, amSet])
    (by decide) (by decide)

/-- Calendar date as the UTC components JavaScript `Date` exposes
(`getUTCFullYear`, month 1..12, day of month). -/
structure JSDate where
  year : ℕ
  month : ℕ
  day : ℕ
deriving DecidableEq

/-- JavaScript `Date` comparison (timestamp order = lexicographic on
year, month, day). -/
def dateLt (a b : JSDate) : Prop :=
  a.year < b.year ∨ (a.year = b.year ∧
    (a.month < b.month ∨ (a.month = b.month ∧ a.day < b.day)))

instance (a b : JSDate) : Decidable (dateLt a b) := by
  unfold dateLt
  infer_instance

/-- `startOfMonth` reduces a date to its month; we index months linearly so
that `addMonths(d, 1)` is `+1` and `Date` comparison of month starts is `≤`
on indices. -/
def monthIdx (d : JSDate) : ℕ := d.year * 12 + (d.month - 1)

/-- `monthKey`: `` `${year}-${month.padStart(2, "0")}` ``. -/
def monthKeyOfIdx (idx : ℕ) : String :=
  let y := idx / 12
  let m := idx % 12 + 1
  toString y ++ "-" ++ (if m < 10 then "0" ++ toString m else toString m)

/-- The `while (cursor <= end)` loop of `buildMonthSeries`. -/
def monthLoop (cursor endIdx : ℕ) : List String :=
  if cursor ≤ endIdx then monthKeyOfIdx cursor :: monthLoop (cursor + 1) endIdx else []
termination_by endIdx + 1 - cursor

/-- `buildMonthSeries(moveInDate, paymentDate, extraMonths)` from the server
function and the client helper: months from `moveInDate`'s month through
`paymentDate`'s month, then `extraMonths` further months. -/
def buildMonthSeries (moveInDate paymentDate : JSDate) (extraMonths : ℕ) : List String :=
  monthLoop (monthIdx moveInDate) (monthIdx paymentDate) ++
    (List.range extraMonths).map (fun i => monthKeyOfIdx (monthIdx paymentDate + (i + 1)))

theorem monthLoop_eq (c e : ℕ) :
    monthLoop c e = (List.range (e + 1 - c)).map (fun i => monthKeyOfIdx (c + i)) := by
  have key : ∀ n c, e + 1 - c = n →
      monthLoop c e = (List.range n).map (fun i => monthKeyOfIdx (c + i)) := by
    intro n
    induction n with
    | zero =>
      intro c hc
      have h : ¬ c ≤ e := by omega
      rw [monthLoop.eq_def, if_neg h]
      simp
    | succ k ih =>
      intro c hc
      have h : c ≤ e := by omega
      rw [monthLoop.eq_def, if_pos h]
      have hk : e + 1 - (c + 1) = k := by omega
      rw [ih (c + 1) hk]
      rw [List.range_succ_eq_map]
      simp only [List.map_cons, List.map_map]
      rw [Nat.add_zero]
      congr 1
      apply List.map_congr_left
      intro i _
      simp only [Function.comp_apply]
      congr 1
      omega
  exact key (e + 1 - c) c rfl

/--
C9 (amended): with `extraMonths = 0`, `buildMonthSeries` returns exactly the
month keys from `moveInDate`'s month through `throughDate`'s month inclusive,
in ascending order (the map over an ascending range of month indices), and
it returns the empty sequence exactly when `moveInDate`'s *month* is after
`throughDate`'s *month* — not whenever `moveInDate > throughDate` as dates:
two dates inside the same calendar month always yield that single month.
-/
theorem buildMonthSeries_months (d1 d2 : JSDate) :
    buildMonthSeries d1 d2 0 =
      (List.range (monthIdx d2 + 1 - monthIdx d1)).map
        (fun i => monthKeyOfIdx (monthIdx d1 + i)) ∧
    (monthIdx d2 < monthIdx d1 → buildMonthSeries d1 d2 0 = []) := by
  have h : buildMonthSeries d1 d2 0 =
      (List.range (monthIdx d2 + 1 - monthIdx d1)).map
        (fun i => monthKeyOfIdx (monthIdx d1 + i)) := by
    unfold buildMonthSeries
    rw [monthLoop_eq]
    simp
  refine ⟨h, ?_⟩
  intro hlt
  rw [h]
  have : monthIdx d2 + 1 - monthIdx d1 = 0 := by omega
  rw [this]
  simp

/--
C9 (counterexample): `moveInDate = 2024-03-20` is strictly after
`throughDate = 2024-03-05`, yet the series is `["2024-03"]`, not empty.
-/
theorem buildMonthSeries_months_cex :
    dateLt ⟨2024, 3, 5⟩ ⟨2024, 3, 20⟩ ∧
    buildMonthSeries ⟨2024, 3, 20⟩ ⟨2024, 3, 5⟩ 0 = ["2024-03"] := by
  constructor
  · decide
  · rw [(buildMonthSeries_months ⟨2024, 3, 20⟩ ⟨2024, 3, 5⟩).1]
    decide

/--
C9 (witness): series for move-in 2024-01-01 through 2024-03-15.
-/
theorem buildMonthSeries_months_witness :
    buildMonthSeries ⟨2024, 1, 1⟩ ⟨2024, 3, 15⟩ 0 =
      (List.range (monthIdx ⟨2024, 3, 15⟩ + 1 - monthIdx ⟨2024, 1, 1⟩)).map
        (fun i => monthKeyOfIdx (monthIdx ⟨2024, 1, 1⟩ + i)) ∧
    buildMonthSeries ⟨2024, 1, 1⟩ ⟨2024, 3, 15⟩ 0 = ["2024-01", "2024-02", "2024-03"] := by
  refine ⟨(buildMonthSeries_months ⟨2024, 1, 1⟩ ⟨2024, 3, 15⟩).1, ?_⟩
  rw [(buildMonthSeries_months ⟨2024, 1, 1⟩ ⟨2024, 3, 15⟩).1]
  decide

/-- A JSON allocation value as seen after `Number(amount)`: either a finite
number or something non-finite (`NaN`/`Infinity` from a malformed entry). -/
inductive JVal where
  | num (q : ℚ)
  | nonFinite
deriving DecidableEq

/-- `Number(v)` when finite. -/
def jnum : JVal → Option ℚ
  | .num q => some q
  | .nonFinite => none

/-- A stored payment row, with `allocationJson` modelled as already parsed:
`none` is a missing or malformed (unparseable) allocation payload. -/
structure JPayment where
  id : String := ""
  tenant : String := ""
  amount : ℚ := 0
  method : String := "cash"
  paymentDate : String := ""
  isReversal : Bool := false
  reversedPaymentId : Option String := none
  allocationJson : Option (List (String × JVal)) := none
deriving DecidableEq

/-- The `Object.entries(allocation).forEach` body of `buildPaidByMonth`:
`value = Number(amount) * multiplier`; skip non-finite or zero values,
else `totals[month] = (totals[month] ?? 0) + value`. -/
def processAllocEntries (mult : ℚ) (totals : AMap) (entries : List (String × JVal)) : AMap :=
  entries.foldl
    (fun t e =>
      match jnum e.2 with
      | none => t
      | some q => if q * mult = 0 then t else amAdd t e.1 (q * mult))
    totals

/-- The totals update a single payment performs: nothing for a missing or
malformed allocation, otherwise the entries fold with multiplier `-1` for
reversals and `1` otherwise. -/
def payTotals (p : JPayment) (totals : AMap) : AMap :=
  match p.allocationJson with
  | none => totals
  | some entries => processAllocEntries (if p.isReversal then -1 else 1) totals entries

/-- One `payments.forEach` iteration of `buildPaidByMonth`: a reversal whose
`reversedPaymentId` is already in the seen set is skipped entirely;
otherwise the target is marked seen and the allocation is accumulated. -/
def bpbmStep (st : AMap × List String) (p : JPayment) : AMap × List String :=
  match p.isReversal, p.reversedPaymentId with
  | true, some target =>
    if target ∈ st.2 then st
    else (payTotals p st.1, target :: st.2)
  | _, _ => (payTotals p st.1, st.2)

/-- `buildPaidByMonth(payments)` from the server function and the client
helper (identical logic). -/
def buildPaidByMonth (payments : List JPayment) : AMap :=
  (payments.foldl bpbmStep ([], [])).1

/-- The payments that survive the reversal de-duplication rule, given the
set of already-seen reversal targets. -/
def dedupReversals : List JPayment → List String → List JPayment
  | [], _ => []
  | p :: rest, seen =>
    match p.isReversal, p.reversedPaymentId with
    | true, some target =>
      if target ∈ seen then dedupReversals rest seen
      else p :: dedupReversals rest (target :: seen)
    | _, _ => p :: dedupReversals rest seen

/-- Signed contribution of one allocation entry to month `m` (0 for a
non-finite or zero value or a different month). -/
def entryContrib (mult : ℚ) (m : String) (e : String × JVal) : ℚ :=
  match jnum e.2 with
  | none => 0
  | some q => if q * mult = 0 then 0 else if e.1 = m then q * mult else 0

/-- Signed contribution of one payment to month `m`. -/
def contribution (p : JPayment) (m : String) : ℚ :=
  match p.allocationJson with
  | none => 0
  | some entries => (entries.map (entryContrib (if p.isReversal then -1 else 1) m)).sum

/-- Whether an entry writes to month `m`. -/
def touchesEntry (mult : ℚ) (m : String) (e : String × JVal) : Bool :=
  match jnum e.2 with
  | none => false
  | some q => if q * mult = 0 then false else decide (e.1 = m)

/-- Whether a payment writes to month `m`. -/
def touches (p : JPayment) (m : String) : Bool :=
  match p.allocationJson with
  | none => false
  | some entries => entries.any (touchesEntry (if p.isReversal then -1 else 1) m)

theorem amLookup_amAdd (t : AMap) (k k' : String) (v : ℚ) :
    amLookup (amAdd t k v) k' = if k = k' then some (amGet t k + v) else amLookup t k' := by
  rw [amAdd, amLookup_amSet]

theorem entryContrib_eq_zero_of_not_touches {mult : ℚ} {m : String} {e : String × JVal}
    (h : touchesEntry mult m e = false) : entryContrib mult m e = 0 := by
  unfold touchesEntry at h
  unfold entryContrib
  cases hv : jnum e.2 with
  | none => rfl
  | some q =>
    simp only [hv] at h ⊢
    by_cases hz : q * mult = 0
    · rw [if_pos hz]
    · rw [if_neg hz] at h ⊢
      have hm : ¬ e.1 = m := by
        intro hm
        rw [hm] at h
        simp at h
      rw [if_neg hm]

theorem amLookup_processAllocEntries (mult : ℚ) (entries : List (String × JVal))
    (totals : AMap) (m : String) :
    amLookup (processAllocEntries mult totals entries) m =
      if entries.any (touchesEntry mult m)
      then some (amGet totals m + (entries.map (entryContrib mult m)).sum)
      else amLookup totals m := by
  induction entries generalizing totals with
  | nil => simp [processAllocEntries]
  | cons e rest ih =>
    have hstep : processAllocEntries mult totals (e :: rest) =
        processAllocEntries mult
          (match jnum e.2 with
           | none => totals
           | some q => if q * mult = 0 then totals else amAdd totals e.1 (q * mult)) rest := rfl
    rw [hstep]
    cases hv : jnum e.2 with
    | none =>
      have ht : touchesEntry mult m e = false := by
        unfold touchesEntry; simp only [hv]
      have hc : entryContrib mult m e = 0 := entryContrib_eq_zero_of_not_touches ht
      simp only [hv]
      rw [ih, List.any_cons, ht, Bool.false_or, List.map_cons, List.sum_cons, hc, zero_add]
    | some q =>
      by_cases hz : q * mult = 0
      · have ht : touchesEntry mult m e = false := by
          unfold touchesEntry; simp only [hv]; rw [if_pos hz]
        have hc : entryContrib mult m e = 0 := entryContrib_eq_zero_of_not_touches ht
        simp only [hv, if_pos hz]
        rw [ih, List.any_cons, ht, Bool.false_or, List.map_cons, List.sum_cons, hc, zero_add]
      · by_cases hm : e.1 = m
        · have ht : touchesEntry mult m e = true := by
            unfold touchesEntry; simp only [hv]; rw [if_neg hz]; exact decide_eq_true hm
          have hc : entryContrib mult m e = q * mult := by
            unfold entryContrib; simp only [hv]; rw [if_neg hz, if_pos hm]
          simp only [hv, if_neg hz]
          rw [ih, List.any_cons, ht, Bool.true_or, List.map_cons, List.sum_cons, hc]
          have hget : amGet (amAdd totals e.1 (q * mult)) m = amGet totals m + q * mult := by
            unfold amGet
            rw [amLookup_amAdd, if_pos hm, hm]
            simp [amGet]
          have hlook : amLookup (amAdd totals e.1 (q * mult)) m =
              some (amGet totals m + q * mult) := by
            rw [amLookup_amAdd, if_pos hm, hm]
          rw [if_pos rfl]
          by_cases ha : rest.any (touchesEntry mult m) = true
          · rw [if_pos ha, hget, add_assoc]
          · rw [if_neg ha, hlook]
            have hzero : (rest.map (entryContrib mult m)).sum = 0 := by
              apply List.sum_eq_zero
              intro x hx
              rcases List.mem_map.mp hx with ⟨e', he', rfl⟩
              apply entryContrib_eq_zero_of_not_touches
              rcases Bool.eq_false_or_eq_true (touchesEntry mult m e') with h | h
              · exact absurd (List.any_eq_true.mpr ⟨e', he', h⟩) ha
              · exact h
            rw [hzero, add_zero]
        · have ht : touchesEntry mult m e = false := by
            unfold touchesEntry; simp only [hv]; rw [if_neg hz]; exact decide_eq_false hm
          have hc : entryContrib mult m e = 0 := entryContrib_eq_zero_of_not_touches ht
          simp only [hv, if_neg hz]
          rw [ih]
          have hget : amGet (amAdd totals e.1 (q * mult)) m = amGet totals m := by
            unfold amGet
            rw [amLookup_amAdd, if_neg hm]
          have hlook : amLookup (amAdd totals e.1 (q * mult)) m = amLookup totals m := by
            rw [amLookup_amAdd, if_neg hm]
          rw [List.any_cons, ht, Bool.false_or, List.map_cons, List.sum_cons, hc, zero_add,
            hget, hlook]

theorem contribution_eq_zero_of_not_touches {p : JPayment} {m : String}
    (h : touches p m = false) : contribution p m = 0 := by
  unfold touches at h
  unfold contribution
  cases hv : p.allocationJson with
  | none => rfl
  | some entries =>
    simp only [hv] at h ⊢
    apply List.sum_eq_zero
    intro x hx
    rcases List.mem_map.mp hx with ⟨e, he, rfl⟩
    apply entryContrib_eq_zero_of_not_touches
    cases h' : touchesEntry (if p.isReversal then -1 else 1) m e with
    | false => rfl
    | true => exact absurd (List.any_eq_true.mpr ⟨e, he, h'⟩) (by rw [h]; simp)

theorem contrib_sum_zero {D : List JPayment} {m : String}
    (ha : ¬ D.any (fun x => touches x m) = true) :
    (D.map (fun x => contribution x m)).sum = 0 := by
  apply List.sum_eq_zero
  intro x hx
  rcases List.mem_map.mp hx with ⟨p, hp, rfl⟩
  apply contribution_eq_zero_of_not_touches
  rcases Bool.eq_false_or_eq_true (touches p m) with h | h
  · exact absurd (List.any_eq_true.mpr ⟨p, hp, h⟩) ha
  · exact h

theorem amLookup_payTotals (p : JPayment) (totals : AMap) (m : String) :
    amLookup (payTotals p totals) m =
      if touches p m then some (amGet totals m + contribution p m) else amLookup totals m := by
  unfold payTotals touches contribution
  cases hv : p.allocationJson with
  | none => simp
  | some entries =>
    simp only
    rw [amLookup_processAllocEntries]

theorem step_combine (totals : AMap) (m : String) (p : JPayment) (D : List JPayment) :
    (if D.any (fun x => touches x m)
     then some (amGet (payTotals p totals) m + (D.map (fun x => contribution x m)).sum)
     else amLookup (payTotals p totals) m) =
    (if (p :: D).any (fun x => touches x m)
     then some (amGet totals m + ((p :: D).map (fun x => contribution x m)).sum)
     else amLookup totals m) := by
  rw [List.any_cons, List.map_cons, List.sum_cons]
  cases ht : touches p m with
  | false =>
    have hlookup : amLookup (payTotals p totals) m = amLookup totals m := by
      rw [amLookup_payTotals, ht]
      simp
    have hget : amGet (payTotals p totals) m = amGet totals m := by
      unfold amGet
      rw [hlookup]
    have hc : contribution p m = 0 := contribution_eq_zero_of_not_touches ht
    rw [Bool.false_or, hc, zero_add, hget, hlookup]
  | true =>
    have hlookup : amLookup (payTotals p totals) m =
        some (amGet totals m + contribution p m) := by
      rw [amLookup_payTotals, ht]
      simp
    have hget : amGet (payTotals p totals) m = amGet totals m + contribution p m := by
      unfold amGet
      rw [hlookup]
      rfl
    rw [Bool.true_or, if_pos rfl]
    by_cases ha : D.any (fun x => touches x m) = true
    · rw [if_pos ha, hget, add_assoc]
    · rw [if_neg ha, hlookup, contrib_sum_zero ha, add_zero]

theorem dedupReversals_cons (p : JPayment) (rest : List JPayment) (seen : List String) :
    dedupReversals (p :: rest) seen =
      match p.isReversal, p.reversedPaymentId with
      | true, some target =>
        if target ∈ seen then dedupReversals rest seen
        else p :: dedupReversals rest (target :: seen)
      | _, _ => p :: dedupReversals rest seen := rfl

theorem dedupReversals_cons_other (p : JPayment) (rest : List JPayment) (seen : List String)
    (h : ¬ (p.isReversal = true ∧ p.reversedPaymentId ≠ none)) :
    dedupReversals (p :: rest) seen = p :: dedupReversals rest seen := by
  rw [dedupReversals_cons]
  cases hrev : p.isReversal with
  | false => cases p.reversedPaymentId <;> rfl
  | true =>
    cases hrid : p.reversedPaymentId with
    | none => rfl
    | some t => exact absurd ⟨hrev, by rw [hrid]; simp⟩ h

theorem bpbmStep_other (st : AMap × List String) (p : JPayment)
    (h : ¬ (p.isReversal = true ∧ p.reversedPaymentId ≠ none)) :
    bpbmStep st p = (payTotals p st.1, st.2) := by
  unfold bpbmStep
  cases hrev : p.isReversal with
  | false => cases p.reversedPaymentId <;> rfl
  | true =>
    cases hrid : p.reversedPaymentId with
    | none => rfl
    | some t => exact absurd ⟨hrev, by rw [hrid]; simp⟩ h

theorem dedupReversals_cons_rev (p : JPayment) (rest : List JPayment) (seen : List String)
    {target : String} (hrev : p.isReversal = true) (hrid : p.reversedPaymentId = some target) :
    dedupReversals (p :: rest) seen =
      if target ∈ seen then dedupReversals rest seen
      else p :: dedupReversals rest (target :: seen) := by
  rw [dedupReversals_cons, hrev, hrid]

theorem bpbmStep_rev (st : AMap × List String) (p : JPayment) {target : String}
    (hrev : p.isReversal = true) (hrid : p.reversedPaymentId = some target) :
    bpbmStep st p = if target ∈ st.2 then st else (payTotals p st.1, target :: st.2) := by
  unfold bpbmStep
  rw [hrev, hrid]

theorem amLookup_bpbmFold (payments : List JPayment) (totals : AMap) (seen : List String)
    (m : String) :
    amLookup ((payments.foldl bpbmStep (totals, seen)).1) m =
      if (dedupReversals payments seen).any (fun x => touches x m)
      then some (amGet totals m + ((dedupReversals payments seen).map
        (fun x => contribution x m)).sum)
      else amLookup totals m := by
  induction payments generalizing totals seen with
  | nil => simp [dedupReversals]
  | cons p rest ih =>
    rw [List.foldl_cons]
    by_cases hcase : p.isReversal = true ∧ p.reversedPaymentId ≠ none
    · rcases hcase with ⟨hrev, hne⟩
      cases hrid : p.reversedPaymentId with
      | none => exact absurd hrid hne
      | some target =>
        by_cases hs : target ∈ seen
        · rw [bpbmStep_rev (totals, seen) p hrev hrid]
          simp only
          rw [if_pos hs, ih, dedupReversals_cons_rev p rest seen hrev hrid, if_pos hs]
        · rw [bpbmStep_rev (totals, seen) p hrev hrid]
          simp only
          rw [if_neg hs, ih, dedupReversals_cons_rev p rest seen hrev hrid, if_neg hs,
            step_combine]
    · rw [bpbmStep_other (totals, seen) p hcase, ih,
        dedupReversals_cons_other p rest seen hcase, step_combine]

/--
C7: `buildPaidByMonth` never crashes on a malformed allocation payload (such
payments contribute nothing), skips any allocation value that is zero or
non-finite, ignores a second reversal whose `reversedPaymentId` was already
processed, and every month total equals the signed sum (reversals negative)
of the surviving allocation entries for that month.
-/
theorem buildPaidByMonth_spec (payments : List JPayment) (m : String) :
    amGet (buildPaidByMonth payments) m =
      ((dedupReversals payments []).map (fun x => contribution x m)).sum := by
  unfold buildPaidByMonth
  unfold amGet
  rw [amLookup_bpbmFold]
  by_cases ha : (dedupReversals payments []).any (fun x => touches x m) = true
  · rw [if_pos ha]
    have h0 : amGet ([] : AMap) m = 0 := rfl
    rw [h0, zero_add]
    rfl
  · rw [if_neg ha, contrib_sum_zero ha]
    rfl

/-- The reversal targets that drive the de-duplication rule, in order. -/
def reversalTargets (payments : List JPayment) : List String :=
  payments.filterMap (fun p =>
    match p.isReversal, p.reversedPaymentId with
    | true, some t => some t
    | _, _ => none)

theorem reversalTargets_cons (p : JPayment) (rest : List JPayment) :
    reversalTargets (p :: rest) =
      match p.isReversal, p.reversedPaymentId with
      | true, some t => t :: reversalTargets rest
      | _, _ => reversalTargets rest := by
  unfold reversalTargets
  rw [List.filterMap_cons]
  cases p.isReversal <;> cases p.reversedPaymentId <;> rfl

theorem reversalTargets_cons_other (p : JPayment) (rest : List JPayment)
    (h : ¬ (p.isReversal = true ∧ p.reversedPaymentId ≠ none)) :
    reversalTargets (p :: rest) = reversalTargets rest := by
  rw [reversalTargets_cons]
  cases hrev : p.isReversal with
  | false => cases p.reversedPaymentId <;> rfl
  | true =>
    cases hrid : p.reversedPaymentId with
    | none => rfl
    | some t => exact absurd ⟨hrev, by rw [hrid]; simp⟩ h

theorem reversalTargets_cons_rev (p : JPayment) (rest : List JPayment) {target : String}
    (hrev : p.isReversal = true) (hrid : p.reversedPaymentId = some target) :
    reversalTargets (p :: rest) = target :: reversalTargets rest := by
  rw [reversalTargets_cons, hrev, hrid]

theorem dedupReversals_eq_self {payments : List JPayment} {seen : List String}
    (hnd : (reversalTargets payments).Nodup)
    (hdisj : ∀ t ∈ reversalTargets payments, t ∉ seen) :
    dedupReversals payments seen = payments := by
  induction payments generalizing seen with
  | nil => rfl
  | cons p rest ih =>
    by_cases hcase : p.isReversal = true ∧ p.reversedPaymentId ≠ none
    · rcases hcase with ⟨hrev, hne⟩
      cases hrid : p.reversedPaymentId with
      | none => exact absurd hrid hne
      | some target =>
        rw [reversalTargets_cons_rev p rest hrev hrid] at hnd hdisj
        have hs : target ∉ seen := hdisj target (by simp)
        rw [dedupReversals_cons_rev p rest seen hrev hrid, if_neg hs]
        have hnd' : (reversalTargets rest).Nodup := (List.nodup_cons.mp hnd).2
        have hdisj' : ∀ t ∈ reversalTargets rest, t ∉ target :: seen := by
          intro t ht hmem
          rcases List.mem_cons.mp hmem with h | h
          · rw [h] at ht
            exact (List.nodup_cons.mp hnd).1 ht
          · exact hdisj t (List.mem_cons_of_mem _ ht) h
        rw [ih hnd' hdisj']
    · rw [reversalTargets_cons_other p rest hcase] at hnd hdisj
      rw [dedupReversals_cons_other p rest seen hcase, ih hnd hdisj]

/--
C8 (amended): the aggregator is order-independent provided no two reversal
payments share the same `reversedPaymentId`: for a permutation of such a
payment list, `buildPaidByMonth` assigns every month the same (optional)
total.
-/
theorem buildPaidByMonth_perm (ps1 ps2 : List JPayment) (hperm : ps1.Perm ps2)
    (hnd : (reversalTargets ps1).Nodup) (m : String) :
    amLookup (buildPaidByMonth ps1) m = amLookup (buildPaidByMonth ps2) m := by
  have hpermT : (reversalTargets ps1).Perm (reversalTargets ps2) := hperm.filterMap _
  have hnd2 : (reversalTargets ps2).Nodup := hpermT.nodup_iff.mp hnd
  have hd1 : dedupReversals ps1 [] = ps1 :=
    dedupReversals_eq_self hnd (by intro t _ h; exact (List.not_mem_nil t) h)
  have hd2 : dedupReversals ps2 [] = ps2 :=
    dedupReversals_eq_self hnd2 (by intro t _ h; exact (List.not_mem_nil t) h)
  unfold buildPaidByMonth
  rw [amLookup_bpbmFold, amLookup_bpbmFold, hd1, hd2]
  have hany : ps1.any (fun x => touches x m) = ps2.any (fun x => touches x m) := by
    rcases Bool.eq_false_or_eq_true (ps1.any (fun x => touches x m)) with h | h
    · rw [List.any_eq_true] at h
      rcases h with ⟨x, hx, ht⟩
      rw [List.any_eq_true.mpr ⟨x, hx, ht⟩,
        List.any_eq_true.mpr ⟨x, hperm.mem_iff.mp hx, ht⟩]
    · rcases Bool.eq_false_or_eq_true (ps2.any (fun x => touches x m)) with h2 | h2
      · rw [List.any_eq_true] at h2
        rcases h2 with ⟨x, hx, ht⟩
        have h1 : ps1.any (fun x => touches x m) = true :=
          List.any_eq_true.mpr ⟨x, hperm.mem_iff.mpr hx, ht⟩
        rw [h1] at h
        exact absurd h (by simp)
      · rw [h, h2]
  have hsum : (ps1.map (fun x => contribution x m)).sum =
      (ps2.map (fun x => contribution x m)).sum := (hperm.map _).sum_eq
  rw [hany, hsum]

/-- Duplicate reversal rows against the same payment, with different
allocations (used to exhibit order dependence). -/
def revA : JPayment :=
  { id := "r1", tenant := "t1", amount := -100, paymentDate := "2024-02-01",
    isReversal := true, reversedPaymentId := some "p1",
    allocationJson := some [("2024-01", JVal.num 100)] }

def revB : JPayment :=
  { id := "r2", tenant := "t1", amount := -50, paymentDate := "2024-02-02",
    isReversal := true, reversedPaymentId := some "p1",
    allocationJson := some [("2024-01", JVal.num 50)] }

/--
C8 (counterexample): with two reversal rows sharing `reversedPaymentId`
`"p1"` but carrying different allocations, the aggregator keeps whichever
comes first: the two orders of the same two-payment list produce different
totals for 2024-01 (−100 versus −50).
-/
theorem buildPaidByMonth_perm_cex :
    ([revA, revB] : List JPayment).Perm [revB, revA] ∧
    amLookup (buildPaidByMonth [revA, revB]) "2024-01" ≠
      amLookup (buildPaidByMonth [revB, revA]) "2024-01" := by
  constructor
  · exact List.Perm.swap revB revA []
  · have h1 : amLookup (buildPaidByMonth [revA, revB]) "2024-01" = some (-100) := by
      simp +decide [buildPaidByMonth, bpbmStep, payTotals, processAllocEntries, amAdd,
        amSet, amGet, amLookup, jnum, revA, revB]
    have h2 : amLookup (buildPaidByMonth [revB, revA]) "2024-01" = some (-50) := by
      simp +decide [buildPaidByMonth, bpbmStep, payTotals, processAllocEntries, amAdd,
        amSet, amGet, amLookup, jnum, revA, revB]
    rw [h1, h2]
    intro h
    have := Option.some.inj h
    norm_num at this

/-- A plain payment and its (single) reversal, for the order-independence
witness. -/
def payA : JPayment :=
  { id := "p1", tenant := "t1", amount := 100, paymentDate := "2024-01-05",
    allocationJson := some [("2024-01", JVal.num 100)] }

def revC : JPayment :=
  { id := "r9", tenant := "t1", amount := -100, paymentDate := "2024-02-01",
    isReversal := true, reversedPaymentId := some "p1",
    allocationJson := some [("2024-01", JVal.num 100)] }

/--
C8 (witness): the amended order-independence theorem applied to a concrete
payment-plus-reversal list and its swap.
-/
theorem buildPaidByMonth_perm_witness :
    amLookup (buildPaidByMonth [payA, revC]) "2024-01" =
      amLookup (buildPaidByMonth [revC, payA]) "2024-01" :=
  buildPaidByMonth_perm [payA, revC] [revC, payA] (List.Perm.swap revC payA [])
    (by decide) "2024-01"

/-- The comparator `(a, b) => b.localeCompare(a)` used to sort months in
descending order: `a` may come before `b` when `b <= a`. -/
def strGeRel (a b : String) : Prop := strLe b a = true

instance : DecidableRel strGeRel := fun a b => inferInstanceAs (Decidable (_ = true))

instance : IsTotal String strGeRel :=
  ⟨fun a b => (strLe_total b a).elim Or.inl Or.inr⟩

instance : IsTrans String strGeRel :=
  ⟨fun _ _ _ hab hbc => strLe_trans hbc hab⟩

/-- One `months.forEach` iteration of `allocateReversal`. -/
def revStep (paidByMonth : AMap) (st : AMap × ℚ) (month : String) : AMap × ℚ :=
  if st.2 ≤ 0 then st
  else
    let paid := roundMoney (max (amGet paidByMonth month) 0)
    if paid ≤ 0 then st
    else
      let applied := roundMoney (min paid st.2)
      if applied ≤ 0 then st
      else (amSet st.1 month applied, roundMoney (st.2 - applied))

/-- `allocateReversal({amount, paidByMonth})` from the server function:
months with positive paid balance, most recent first, each absorbing
`min(paid, remaining)`. -/
def allocateReversal (amount : ℚ) (paidByMonth : AMap) : AMap × ℚ :=
  let months := List.insertionSort strGeRel
    ((paidByMonth.filter (fun kv => decide (0 < kv.2))).map Prod.fst)
  months.foldl (revStep paidByMonth) ([], roundMoney (max amount 0))

/-- An exact multiple of a cent. -/
def isCents (q : ℚ) : Prop := ∃ n : ℤ, q = (n : ℚ) / 100

theorem roundMoney_isCents (v : ℚ) : isCents (roundMoney v) :=
  ⟨Rat.floor ((v + jsEps) * 100 + 1/2), rfl⟩

theorem isCents_sub {a b : ℚ} (ha : isCents a) (hb : isCents b) : isCents (a - b) := by
  rcases ha with ⟨n, rfl⟩
  rcases hb with ⟨m, rfl⟩
  exact ⟨n - m, by push_cast; ring⟩

theorem roundMoney_of_isCents {q : ℚ} (h : isCents q) : roundMoney q = q := by
  rcases h with ⟨n, rfl⟩
  exact roundMoney_cents n

theorem roundMoney_zero : roundMoney 0 = 0 := by
  have h := roundMoney_cents 0
  norm_num at h
  exact h

theorem isCents_zero : isCents 0 := ⟨0, by norm_num⟩

/-- If the rounded clamped paid balance is positive, the raw balance was. -/
theorem pos_of_roundMoney_max_pos {x : ℚ} (h : ¬ roundMoney (max x 0) ≤ 0) : 0 < x := by
  by_contra hx
  push_neg at hx
  rw [max_eq_right hx, roundMoney_zero] at h
  exact h le_rfl

theorem amKeys_nodup_amSet {m : AMap} (k : String) (v : ℚ) (h : (amKeys m).Nodup) :
    (amKeys (amSet m k v)).Nodup := by
  rw [amKeys_amSet]
  by_cases hk : k ∈ amKeys m
  · rw [if_pos hk]; exact h
  · rw [if_neg hk]
    rw [List.nodup_append]
    exact ⟨h, List.nodup_singleton k, by
      intro a ha hb
      rw [List.mem_singleton] at hb
      rw [hb] at ha
      exact hk ha⟩

theorem amKeys_nodup_processAllocEntries (mult : ℚ) (entries : List (String × JVal))
    {totals : AMap} (h : (amKeys totals).Nodup) :
    (amKeys (processAllocEntries mult totals entries)).Nodup := by
  induction entries generalizing totals with
  | nil => exact h
  | cons e rest ih =>
    have hstep : processAllocEntries mult totals (e :: rest) =
        processAllocEntries mult
          (match jnum e.2 with
           | none => totals
           | some q => if q * mult = 0 then totals else amAdd totals e.1 (q * mult)) rest := rfl
    rw [hstep]
    cases hv : jnum e.2 with
    | none =>
      simp only [hv]
      exact ih h
    | some q =>
      simp only [hv]
      by_cases hz : q * mult = 0
      · rw [if_pos hz]; exact ih h
      · rw [if_neg hz]; exact ih (amKeys_nodup_amSet _ _ h)

theorem amKeys_nodup_payTotals (p : JPayment) {totals : AMap}
    (h : (amKeys totals).Nodup) : (amKeys (payTotals p totals)).Nodup := by
  unfold payTotals
  cases p.allocationJson with
  | none => exact h
  | some entries => exact amKeys_nodup_processAllocEntries _ entries h

theorem amKeys_nodup_bpbmFold (payments : List JPayment) {totals : AMap}
    (seen : List String) (h : (amKeys totals).Nodup) :
    (amKeys ((payments.foldl bpbmStep (totals, seen)).1)).Nodup := by
  induction payments generalizing totals seen with
  | nil => exact h
  | cons p rest ih =>
    rw [List.foldl_cons]
    by_cases hcase : p.isReversal = true ∧ p.reversedPaymentId ≠ none
    · rcases hcase with ⟨hrev, hne⟩
      cases hrid : p.reversedPaymentId with
      | none => exact absurd hrid hne
      | some target =>
        rw [bpbmStep_rev (totals, seen) p hrev hrid]
        by_cases hs : target ∈ seen
        · simp only
          rw [if_pos hs]
          exact ih seen h
        · simp only
          rw [if_neg hs]
          exact ih _ (amKeys_nodup_payTotals p h)
    · rw [bpbmStep_other (totals, seen) p hcase]
      exact ih seen (amKeys_nodup_payTotals p h)

/-- The aggregated paid-by-month object has pairwise-distinct keys. -/
theorem amKeys_nodup_buildPaidByMonth (payments : List JPayment) :
    (amKeys (buildPaidByMonth payments)).Nodup :=
  amKeys_nodup_bpbmFold payments [] List.nodup_nil

theorem mem_amSet {m : AMap} {k : String} {v : ℚ} {kv : String × ℚ}
    (h : kv ∈ amSet m k v) : kv ∈ m ∨ kv = (k, v) := by
  induction m with
  | nil =>
    simp only [amSet] at h
    exact Or.inr (List.mem_singleton.mp h)
  | cons kv0 rest ih =>
    by_cases h0 : kv0.1 = k
    · simp only [amSet, h0, if_true] at h
      rcases List.mem_cons.mp h with h | h
      · exact Or.inr h
      · exact Or.inl (List.mem_cons_of_mem _ h)
    · simp only [amSet, h0, if_false] at h
      rcases List.mem_cons.mp h with h | h
      · exact Or.inl (h ▸ List.mem_cons_self kv0 rest)
      · rcases ih h with h' | h'
        · exact Or.inl (List.mem_cons_of_mem _ h')
        · exact Or.inr h'

theorem revStep_unfold (P : AMap) (st : AMap × ℚ) (month : String) :
    revStep P st month =
      if st.2 ≤ 0 then st
      else if roundMoney (max (amGet P month) 0) ≤ 0 then st
      else if roundMoney (min (roundMoney (max (amGet P month) 0)) st.2) ≤ 0 then st
      else
        (amSet st.1 month (roundMoney (min (roundMoney (max (amGet P month) 0)) st.2)),
         roundMoney (st.2 - roundMoney (min (roundMoney (max (amGet P month) 0)) st.2))) := rfl

/-- Invariants of the reversal fold: money is conserved exactly (the
rounding steps are identities on cent amounts), the remaining stays a cent
amount, every recorded entry is positive, rounded, and sits at a month with
a positive paid balance, and the allocation keys form a subsequence of the
processed month list. -/
theorem revFold_main (P : AMap) (months : List String) (st : AMap × ℚ)
    (hnd : months.Nodup) (hdisj : ∀ mo ∈ months, mo ∉ amKeys st.1)
    (hrem : isCents st.2)
    (hvals : ∀ kv ∈ st.1, 0 < kv.2 ∧ isCents kv.2 ∧ 0 < amGet P kv.1) :
    amValuesSum (months.foldl (revStep P) st).1 + (months.foldl (revStep P) st).2 =
      amValuesSum st.1 + st.2 ∧
    isCents (months.foldl (revStep P) st).2 ∧
    (∀ kv ∈ (months.foldl (revStep P) st).1,
      0 < kv.2 ∧ isCents kv.2 ∧ 0 < amGet P kv.1) ∧
    List.Sublist (amKeys (months.foldl (revStep P) st).1) (amKeys st.1 ++ months) := by
  induction months generalizing st with
  | nil =>
    refine ⟨rfl, hrem, hvals, ?_⟩
    simp
  | cons mo rest ih =>
    rw [List.foldl_cons]
    have hnd' : rest.Nodup := (List.nodup_cons.mp hnd).2
    have hmo : mo ∉ rest := (List.nodup_cons.mp hnd).1
    have hskip : ∀ st' : AMap × ℚ, st' = st →
        amValuesSum ((rest.foldl (revStep P) st').1) + (rest.foldl (revStep P) st').2 =
          amValuesSum st.1 + st.2 ∧
        isCents (rest.foldl (revStep P) st').2 ∧
        (∀ kv ∈ (rest.foldl (revStep P) st').1,
          0 < kv.2 ∧ isCents kv.2 ∧ 0 < amGet P kv.1) ∧
        List.Sublist (amKeys (rest.foldl (revStep P) st').1) (amKeys st.1 ++ mo :: rest) := by
      intro st' hst'
      rw [hst']
      have hdisj' : ∀ x ∈ rest, x ∉ amKeys st.1 := fun x hx =>
        hdisj x (List.mem_cons_of_mem _ hx)
      rcases ih st hnd' hdisj' hrem hvals with ⟨h1, h2, h3, h4⟩
      refine ⟨h1, h2, h3, h4.trans (List.Sublist.append_left ?_ _)⟩
      exact List.sublist_cons_self mo rest
    rw [revStep_unfold]
    by_cases hg1 : st.2 ≤ 0
    · rw [if_pos hg1]
      exact hskip st rfl
    · rw [if_neg hg1]
      by_cases hg2 : roundMoney (max (amGet P mo) 0) ≤ 0
      · rw [if_pos hg2]
        exact hskip st rfl
      · rw [if_neg hg2]
        by_cases hg3 : roundMoney (min (roundMoney (max (amGet P mo) 0)) st.2) ≤ 0
        · rw [if_pos hg3]
          exact hskip st rfl
        · rw [if_neg hg3]
          have hmok : mo ∉ amKeys st.1 := hdisj mo (List.mem_cons_self mo rest)
          have hpos : 0 < amGet P mo := pos_of_roundMoney_max_pos hg2
          have happc : isCents (roundMoney (min (roundMoney (max (amGet P mo) 0)) st.2)) :=
            roundMoney_isCents _
          generalize happ : roundMoney (min (roundMoney (max (amGet P mo) 0)) st.2) = applied
            at hg3 happc ⊢
          push_neg at hg3
          have hrem' : isCents (st.2 - applied) := isCents_sub hrem happc
          have hrm : roundMoney (st.2 - applied) = st.2 - applied :=
            roundMoney_of_isCents hrem'
          have hkeys' : amKeys (amSet st.1 mo applied) = amKeys st.1 ++ [mo] := by
            rw [amKeys_amSet, if_neg hmok]
          have hdisj' : ∀ x ∈ rest, x ∉ amKeys (amSet st.1 mo applied) := by
            intro x hx
            rw [hkeys']
            intro hmem
            rcases List.mem_append.mp hmem with h | h
            · exact hdisj x (List.mem_cons_of_mem _ hx) h
            · rw [List.mem_singleton] at h
              rw [h] at hx
              exact hmo hx
          have hvals' : ∀ kv ∈ amSet st.1 mo applied,
              0 < kv.2 ∧ isCents kv.2 ∧ 0 < amGet P kv.1 := by
            intro kv hkv
            rcases mem_amSet hkv with h | h
            · exact hvals kv h
            · rw [h]
              exact ⟨hg3, happc, hpos⟩
          have hremc : isCents (roundMoney (st.2 - applied)) := roundMoney_isCents _
          rcases ih (amSet st.1 mo applied, roundMoney (st.2 - applied))
            hnd' hdisj' hremc hvals' with ⟨h1, h2, h3, h4⟩
          refine ⟨?_, h2, h3, ?_⟩
          · rw [h1]
            simp only
            rw [hrm, amValuesSum_amSet_new applied hmok]
            ring
          · simp only at h4
            rw [hkeys', List.append_assoc] at h4
            exact h4

/-- `Query.orderAsc("paymentDate")`. -/
def payDateLe (a b : JPayment) : Prop := strLe a.paymentDate b.paymentDate = true

instance : DecidableRel payDateLe := fun a b => inferInstanceAs (Decidable (_ = true))

instance : IsTotal JPayment payDateLe :=
  ⟨fun a b => strLe_total a.paymentDate b.paymentDate⟩

instance : IsTrans JPayment payDateLe :=
  ⟨fun _ _ _ hab hbc => strLe_trans hab hbc⟩

/-- `listAllTenantPayments`: every payment of the tenant, ordered by
`paymentDate` ascending. -/
def listAllTenantPayments (db : List JPayment) (tid : String) : List JPayment :=
  List.insertionSort payDateLe (db.filter (fun p => decide (p.tenant = tid)))

/-- The paid-by-month snapshot the reversal path computes from the tenant's
current payment rows. -/
def tenantSnapshot (db : List JPayment) (tid : String) : AMap :=
  buildPaidByMonth (listAllTenantPayments db tid)

/-- The reversal document the handler persists (`databases.createDocument`
payload of the reversal path). -/
def reversalDoc (newId : String) (orig : JPayment) (pd : Option String) (alloc : AMap) :
    JPayment :=
  { id := newId, tenant := orig.tenant, amount := -(roundMoney (amValuesSum alloc)),
    method := orig.method, paymentDate := pd.getD orig.paymentDate,
    isReversal := true, reversedPaymentId := some orig.id,
    allocationJson := some (alloc.map (fun kv => (kv.1, JVal.num kv.2))) }

/-- Outcome of the reversal path of the `allocateRentPayment` handler; each
rejection is a distinct, specific error (per §7 these surface distinct
reason texts and status codes), and on every rejection the payments
collection is returned unchanged (nothing is written). -/
inductive ReversalOutcome where
  | notFound
  | reversalOfReversal
  | alreadyReversed
  | noTenant
  | nothingToReverse
  | created (reversal : JPayment)
deriving DecidableEq

/-- The reversal path of the current `allocateRentPayment` handler:
fetch the original, reject reversals of reversals, reject a second reversal
(uniqueness query on `reversedPaymentId`), recompute the paid-by-month
snapshot from all the tenant's payments, run `allocateReversal`, reject an
empty reversal, else append the reversal document. -/
def reverseHandler (db : List JPayment) (reversePaymentId newId : String)
    (paymentDate : Option String) : List JPayment × ReversalOutcome :=
  match db.find? (fun p => decide (p.id = reversePaymentId)) with
  | none => (db, ReversalOutcome.notFound)
  | some original =>
    if original.isReversal then (db, ReversalOutcome.reversalOfReversal)
    else if db.any (fun p => decide (p.reversedPaymentId = some original.id)) then
      (db, ReversalOutcome.alreadyReversed)
    else if original.tenant = "" then (db, ReversalOutcome.noTenant)
    else
      let paidByMonth := tenantSnapshot db original.tenant
      let res := allocateReversal |original.amount| paidByMonth
      let appliedTotal := roundMoney (amValuesSum res.1)
      if appliedTotal ≤ 0 then (db, ReversalOutcome.nothingToReverse)
      else
        (db ++ [reversalDoc newId original paymentDate res.1],
         ReversalOutcome.created (reversalDoc newId original paymentDate res.1))

/-- The waterfall properties of `allocateReversal` against a paid-by-month
object with distinct keys. -/
theorem allocateReversal_props (amount : ℚ) (P : AMap) (hnd : (amKeys P).Nodup) :
    amValuesSum (allocateReversal amount P).1 + (allocateReversal amount P).2 =
      roundMoney (max amount 0) ∧
    (∀ kv ∈ (allocateReversal amount P).1,
      0 < kv.2 ∧ kv.2 = roundMoney kv.2 ∧ 0 < amGet P kv.1) ∧
    (amKeys (allocateReversal amount P).1).Pairwise (fun a b => strLt b a = true) := by
  have hmonths := List.sorted_insertionSort strGeRel
    ((P.filter (fun kv => decide (0 < kv.2))).map Prod.fst)
  have hsubl : List.Sublist ((P.filter (fun kv => decide (0 < kv.2))).map Prod.fst)
      (amKeys P) := (List.filter_sublist P).map Prod.fst
  have hndf : ((P.filter (fun kv => decide (0 < kv.2))).map Prod.fst).Nodup :=
    hnd.sublist hsubl
  have hndm : (List.insertionSort strGeRel
      ((P.filter (fun kv => decide (0 < kv.2))).map Prod.fst)).Nodup :=
    (List.perm_insertionSort strGeRel _).nodup_iff.mpr hndf
  have hdisj0 : ∀ mo ∈ List.insertionSort strGeRel
      ((P.filter (fun kv => decide (0 < kv.2))).map Prod.fst),
      mo ∉ amKeys ((([] : AMap), roundMoney (max amount 0)) : AMap × ℚ).1 := by
    intro mo _ h
    exact absurd h (List.not_mem_nil mo)
  have hvals0 : ∀ kv ∈ ((([] : AMap), roundMoney (max amount 0)) : AMap × ℚ).1,
      0 < kv.2 ∧ isCents kv.2 ∧ 0 < amGet P kv.1 := by
    intro kv hkv
    exact absurd hkv (List.not_mem_nil kv)
  have hmain := revFold_main P
    (List.insertionSort strGeRel ((P.filter (fun kv => decide (0 < kv.2))).map Prod.fst))
    (([] : AMap), roundMoney (max amount 0)) hndm hdisj0 (roundMoney_isCents _) hvals0
  obtain ⟨h1, _h2, h3, h4⟩ := hmain
  refine ⟨?_, ?_, ?_⟩
  · have h0 : amValuesSum ([] : AMap) = 0 := rfl
    rw [allocateReversal]
    rw [h1, h0, zero_add]
  · intro kv hkv
    rcases h3 kv hkv with ⟨hp, hcent, hpos⟩
    exact ⟨hp, (roundMoney_of_isCents hcent).symm, hpos⟩
  · have hdesc : (List.insertionSort strGeRel
        ((P.filter (fun kv => decide (0 < kv.2))).map Prod.fst)).Pairwise
        (fun a b => strLt b a = true) := by
      have hcomb := List.Pairwise.and hmonths hndm
      refine hcomb.imp ?_
      rintro a b ⟨hge, hne⟩
      have hnab : strLe a b = false := by
        cases hab : strLe a b with
        | false => rfl
        | true => exact absurd (strLe_antisymm hab hge) hne
      unfold strLt
      rw [hge, hnab]
      rfl
    have hk4 : List.Sublist (amKeys (allocateReversal amount P).1)
        (List.insertionSort strGeRel
          ((P.filter (fun kv => decide (0 < kv.2))).map Prod.fst)) := by
      have : amKeys ([] : AMap) ++ (List.insertionSort strGeRel
          ((P.filter (fun kv => decide (0 < kv.2))).map Prod.fst)) =
          List.insertionSort strGeRel
            ((P.filter (fun kv => decide (0 < kv.2))).map Prod.fst) := rfl
      rw [allocateReversal]
      rw [← this]
      exact h4
    exact hdesc.sublist hk4

theorem reverseHandler_of_find (db : List JPayment) (rid newId : String) (pd : Option String)
    (orig : JPayment)
    (hfind : db.find? (fun p => decide (p.id = rid)) = some orig) :
    reverseHandler db rid newId pd =
      (if orig.isReversal then (db, ReversalOutcome.reversalOfReversal)
       else if db.any (fun p => decide (p.reversedPaymentId = some orig.id)) then
         (db, ReversalOutcome.alreadyReversed)
       else if orig.tenant = "" then (db, ReversalOutcome.noTenant)
       else if roundMoney (amValuesSum (allocateReversal |orig.amount|
           (tenantSnapshot db orig.tenant)).1) ≤ 0 then
         (db, ReversalOutcome.nothingToReverse)
       else
         (db ++ [reversalDoc newId orig pd (allocateReversal |orig.amount|
            (tenantSnapshot db orig.tenant)).1],
          ReversalOutcome.created (reversalDoc newId orig pd (allocateReversal |orig.amount|
            (tenantSnapshot db orig.tenant)).1))) := by
  unfold reverseHandler
  rw [hfind]

/--
C4: a reversal request whose target is itself a reversal, or whose target
already has a reversal record (by the uniqueness query on
`reversedPaymentId`), fails with the specific conflict outcome
(`reversalOfReversal`, resp. `alreadyReversed`) — distinct constructors of
`ReversalOutcome`, not a generic failure — and the payments collection is
returned unchanged: no new row is written and no stored allocation is
altered.
-/
theorem reverseHandler_conflicts (db : List JPayment) (rid newId : String) (pd : Option String)
    (orig : JPayment)
    (hfind : db.find? (fun p => decide (p.id = rid)) = some orig) :
    (orig.isReversal = true →
      reverseHandler db rid newId pd = (db, ReversalOutcome.reversalOfReversal)) ∧
    (orig.isReversal = false →
      db.any (fun p => decide (p.reversedPaymentId = some orig.id)) = true →
      reverseHandler db rid newId pd = (db, ReversalOutcome.alreadyReversed)) := by
  constructor
  · intro h1
    rw [reverseHandler_of_find db rid newId pd orig hfind, h1]
    simp
  · intro h1 h2
    rw [reverseHandler_of_find db rid newId pd orig hfind, h1, h2]
    simp

/-- A reversal row used as a conflict-guard witness target. -/
def revW : JPayment :=
  { id := "rv1", tenant := "tw", amount := -100, paymentDate := "2024-02-01",
    isReversal := true, reversedPaymentId := some "pz",
    allocationJson := some [("2024-01", JVal.num 100)] }

/--
C4 (witness): reversing the reversal row `revW` is rejected with the
specific conflict outcome and leaves the collection unchanged.
-/
theorem reverseHandler_conflicts_witness :
    reverseHandler [revW] "rv1" "n1" none = ([revW], ReversalOutcome.reversalOfReversal) :=
  (reverseHandler_conflicts [revW] "rv1" "n1" none revW rfl).1 rfl

/--
C3: when the reversal guards pass, the reversal's allocation is
`allocateReversal` over the paid-by-month snapshot rebuilt from all of the
tenant's current payment rows (`tenantSnapshot`), not the original
payment's stored allocation: the created document carries exactly that
allocation.  The allocation itself satisfies the reverse waterfall: every
recorded month has a positive snapshot balance, every applied amount is
positive and rounded, months are consumed in strictly descending order,
and the applied amounts plus the unabsorbed remainder account exactly for
the reversal amount.
-/
theorem reverseHandler_snapshot (db : List JPayment) (rid newId : String) (pd : Option String)
    (orig : JPayment)
    (hfind : db.find? (fun p => decide (p.id = rid)) = some orig)
    (h1 : orig.isReversal = false)
    (h2 : db.any (fun p => decide (p.reversedPaymentId = some orig.id)) = false)
    (h3 : ¬ orig.tenant = "") :
    amValuesSum (allocateReversal |orig.amount| (tenantSnapshot db orig.tenant)).1 +
      (allocateReversal |orig.amount| (tenantSnapshot db orig.tenant)).2 =
      roundMoney (max |orig.amount| 0) ∧
    (∀ kv ∈ (allocateReversal |orig.amount| (tenantSnapshot db orig.tenant)).1,
      0 < kv.2 ∧ kv.2 = roundMoney kv.2 ∧
        0 < amGet (tenantSnapshot db orig.tenant) kv.1) ∧
    (amKeys (allocateReversal |orig.amount| (tenantSnapshot db orig.tenant)).1).Pairwise
      (fun a b => strLt b a = true) ∧
    (¬ roundMoney (amValuesSum (allocateReversal |orig.amount|
        (tenantSnapshot db orig.tenant)).1) ≤ 0 →
      reverseHandler db rid newId pd =
        (db ++ [reversalDoc newId orig pd
            (allocateReversal |orig.amount| (tenantSnapshot db orig.tenant)).1],
         ReversalOutcome.created (reversalDoc newId orig pd
            (allocateReversal |orig.amount| (tenantSnapshot db orig.tenant)).1))) := by
  have hnd : (amKeys (tenantSnapshot db orig.tenant)).Nodup :=
    amKeys_nodup_buildPaidByMonth (listAllTenantPayments db orig.tenant)
  obtain ⟨hc, hv, hd⟩ := allocateReversal_props |orig.amount| (tenantSnapshot db orig.tenant) hnd
  refine ⟨hc, hv, hd, ?_⟩
  intro h4
  rw [reverseHandler_of_find db rid newId pd orig hfind, h1, h2]
  simp only [Bool.false_eq_true, if_false]
  rw [if_neg h3, if_neg h4]

/-- An ordinary payment row used as the snapshot-reversal witness target. -/
def payW : JPayment :=
  { id := "pw", tenant := "tw", amount := 100, paymentDate := "2024-01-05",
    allocationJson := some [("2024-01", JVal.num 100)] }

/--
C3 (witness): reversal conservation at a concrete one-payment database.
-/
theorem reverseHandler_snapshot_witness :
    amValuesSum (allocateReversal |payW.amount| (tenantSnapshot [payW] payW.tenant)).1 +
      (allocateReversal |payW.amount| (tenantSnapshot [payW] payW.tenant)).2 =
      roundMoney (max |payW.amount| 0) :=
  (reverseHandler_snapshot [payW] "pw" "nw" none payW rfl rfl rfl (by decide)).1

theorem revFold_rounding (P : AMap) (months : List String) (st : AMap × ℚ)
    (hrem : isCents st.2) (hvals : ∀ kv ∈ st.1, 0 < kv.2 ∧ isCents kv.2) :
    isCents (months.foldl (revStep P) st).2 ∧
    ∀ kv ∈ (months.foldl (revStep P) st).1, 0 < kv.2 ∧ isCents kv.2 := by
  induction months generalizing st with
  | nil => exact ⟨hrem, hvals⟩
  | cons mo rest ih =>
    rw [List.foldl_cons, revStep_unfold]
    by_cases hg1 : st.2 ≤ 0
    · rw [if_pos hg1]
      exact ih st hrem hvals
    · rw [if_neg hg1]
      by_cases hg2 : roundMoney (max (amGet P mo) 0) ≤ 0
      · rw [if_pos hg2]
        exact ih st hrem hvals
      · rw [if_neg hg2]
        by_cases hg3 : roundMoney (min (roundMoney (max (amGet P mo) 0)) st.2) ≤ 0
        · rw [if_pos hg3]
          exact ih st hrem hvals
        · rw [if_neg hg3]
          push_neg at hg3
          apply ih
          · exact roundMoney_isCents _
          · intro kv hkv
            rcases mem_amSet hkv with h | h
            · exact hvals kv h
            · rw [h]
              exact ⟨hg3, roundMoney_isCents _⟩

theorem allocFold_pos (paidByMonth rentByMonth : AMap) (months : List String)
    (st : AMap × ℚ) (hvals : ∀ kv ∈ st.1, 0 < kv.2) :
    ∀ kv ∈ (months.foldl (allocStep paidByMonth rentByMonth) st).1, 0 < kv.2 := by
  induction months generalizing st with
  | nil => exact hvals
  | cons mo rest ih =>
    rw [List.foldl_cons]
    apply ih
    unfold allocStep
    by_cases hg1 : st.2 ≤ 0
    · rw [if_pos hg1]; exact hvals
    · rw [if_neg hg1]
      by_cases hg2 : max (amGet rentByMonth mo - amGet paidByMonth mo) 0 ≤ 0
      · rw [if_pos hg2]; exact hvals
      · rw [if_neg hg2]
        push_neg at hg1 hg2
        intro kv hkv
        rcases mem_amSet hkv with h | h
        · exact hvals kv h
        · rw [h]
          exact lt_min hg2 hg1

/--
C5 (amended): the *reversal* allocation rounds to cents after every step:
its remaining and every recorded applied amount are fixed points of
`roundMoney`, applied amounts are strictly positive (a zero rounded amount
is never recorded — absence means zero).  The *forward* allocation
(`allocatePayment`, and the client preview) performs no rounding at all;
it still never records a zero or negative entry.
-/
theorem allocation_rounding (a amount : ℚ) (P paidByMonth rentByMonth : AMap)
    (months : List String) :
    (allocateReversal a P).2 = roundMoney (allocateReversal a P).2 ∧
    (∀ kv ∈ (allocateReversal a P).1, 0 < kv.2 ∧ kv.2 = roundMoney kv.2) ∧
    (∀ kv ∈ (allocatePayment amount months paidByMonth rentByMonth).1, 0 < kv.2) := by
  have hvals0 : ∀ kv ∈ (([] : AMap), roundMoney (max a 0)).1, 0 < kv.2 ∧ isCents kv.2 := by
    intro kv hkv
    exact absurd hkv (List.not_mem_nil kv)
  have hmain := revFold_rounding P
    (List.insertionSort strGeRel ((P.filter (fun kv => decide (0 < kv.2))).map Prod.fst))
    (([] : AMap), roundMoney (max a 0)) (roundMoney_isCents _) hvals0
  obtain ⟨h1, h2⟩ := hmain
  refine ⟨?_, ?_, ?_⟩
  · rw [allocateReversal]
    exact (roundMoney_of_isCents h1).symm
  · intro kv hkv
    rw [allocateReversal] at hkv
    rcases h2 kv hkv with ⟨hp, hc⟩
    exact ⟨hp, (roundMoney_of_isCents hc).symm⟩
  · apply allocFold_pos
    intro kv hkv
    exact absurd hkv (List.not_mem_nil kv)

/--
C5 (counterexample): the forward allocation does not round: an amount of
0.005 is applied verbatim (three decimal places) to the first unpaid month;
`roundMoney` would have turned it into 0.01.
-/
theorem allocation_rounding_cex :
    (allocatePayment (1/200) ["2024-01"] [] [("2024-01", 1000)]).1 =
      [("2024-01", 1/200)] ∧
    roundMoney (1/200) ≠ 1/200 := by
  constructor
  · norm_num [allocatePayment, allocStep, amGet, amLookup, amSet, min_def, max_def]
  · have hfl : Rat.floor ((1/200 + jsEps) * 100 + 1/2) = 1 := by
      rw [Rat.floor_def']
      norm_num [jsEps]
    rw [roundMoney, hfl]
    norm_num

/-- The `source` tag of a rent history entry. -/
inductive RentSource where
  | house
  | override
  | manual
deriving DecidableEq

/-- A parsed rent history entry (`{effectiveDate, amount, source}`). -/
structure RentHistoryEntry where
  effectiveDate : String
  amount : ℚ
  source : RentSource
deriving DecidableEq

/-- `entryPriority`: `house` entries sort before `override`/`manual` ones on
date ties. -/
def entryPriority (e : RentHistoryEntry) : ℕ :=
  if e.source = RentSource.house then 0 else 1

/-- The sort comparator of `buildEffectiveHistory`: by effective date
(string compare), ties broken by source priority. -/
def entryLe (a b : RentHistoryEntry) : Prop :=
  strLt a.effectiveDate b.effectiveDate = true ∨
  (a.effectiveDate = b.effectiveDate ∧ entryPriority a ≤ entryPriority b)

instance : DecidableRel entryLe := fun a b =>
  inferInstanceAs (Decidable (_ ∨ _))

theorem strLt_true_iff {a b : String} :
    strLt a b = true ↔ (strLe a b = true ∧ strLe b a = false) := by
  unfold strLt
  rw [Bool.and_eq_true, Bool.not_eq_true']

instance : IsTotal RentHistoryEntry entryLe := by
  constructor
  intro a b
  cases hab : strLe a.effectiveDate b.effectiveDate with
  | true =>
    cases hba : strLe b.effectiveDate a.effectiveDate with
    | true =>
      have heq : a.effectiveDate = b.effectiveDate := strLe_antisymm hab hba
      rcases Nat.le_total (entryPriority a) (entryPriority b) with h | h
      · exact Or.inl (Or.inr ⟨heq, h⟩)
      · exact Or.inr (Or.inr ⟨heq.symm, h⟩)
    | false =>
      exact Or.inl (Or.inl (strLt_true_iff.mpr ⟨hab, hba⟩))
  | false =>
    have hba : strLe b.effectiveDate a.effectiveDate = true := by
      rcases strLe_total a.effectiveDate b.effectiveDate with h | h
      · rw [h] at hab
        exact absurd hab (by simp)
      · exact h
    exact Or.inr (Or.inl (strLt_true_iff.mpr ⟨hba, hab⟩))

theorem strLt_trans' {a b c : String} (hab : strLt a b = true) (hbc : strLt b c = true) :
    strLt a c = true := by
  rcases strLt_true_iff.mp hab with ⟨h1, h2⟩
  rcases strLt_true_iff.mp hbc with ⟨h3, h4⟩
  refine strLt_true_iff.mpr ⟨strLe_trans h1 h3, ?_⟩
  cases hca : strLe c a with
  | false => rfl
  | true =>
    have : strLe c b = true := strLe_trans hca h1
    rw [this] at h4
    exact absurd h4 (by simp)

instance : IsTrans RentHistoryEntry entryLe := by
  constructor
  intro a b c hab hbc
  rcases hab with hab | ⟨hdab, hpab⟩
  · rcases hbc with hbc | ⟨hdbc, _⟩
    · exact Or.inl (strLt_trans' hab hbc)
    · exact Or.inl (hdbc ▸ hab)
  · rcases hbc with hbc | ⟨hdbc, hpbc⟩
    · exact Or.inl (hdab ▸ hbc)
    · exact Or.inr ⟨hdab.trans hdbc, hpab.trans hpbc⟩

/-- `buildEffectiveHistory` from the current handler (and the current
client helper): merge house entries with tenant-specific entries when the
tenant has any, else the house history, else the tenant's raw history;
sort by date with house-before-override ties. -/
def buildEffectiveHistory (tenantHistory houseHistory : List RentHistoryEntry) :
    List RentHistoryEntry :=
  let tenantSpecificHistory :=
    tenantHistory.filter (fun e => decide (e.source ≠ RentSource.house))
  let baseHistory :=
    if tenantSpecificHistory ≠ [] then houseHistory ++ tenantSpecificHistory
    else if houseHistory ≠ [] then houseHistory
    else tenantHistory
  List.insertionSort entryLe baseHistory

/-- The per-month resolution of `buildRentByMonth`: amount of the last
qualifying merged-timeline entry, else the fallback. -/
def resolveRent (tenantHistory houseHistory : List RentHistoryEntry) (fallbackRent : ℚ)
    (month : String) : ℚ :=
  match ((buildEffectiveHistory tenantHistory houseHistory).filter
      (fun e => strLe e.effectiveDate (month ++ "-01"))).getLast? with
  | some e => e.amount
  | none => fallbackRent

/-- `buildRentByMonth` from the current handler: one object entry per
requested month. -/
def buildRentByMonth (months : List String) (tenantHistory houseHistory : List RentHistoryEntry)
    (fallbackRent : ℚ) : AMap :=
  months.foldl
    (fun acc month => amSet acc month (resolveRent tenantHistory houseHistory fallbackRent month))
    []

theorem pairwise_getLast {α : Type} {R : α → α → Prop} (hrefl : ∀ x, R x x)
    {l : List α} (hp : l.Pairwise R) {e : α} (he : l.getLast? = some e) :
    ∀ x ∈ l, R x e := by
  induction l with
  | nil => simp at he
  | cons a rest ih =>
    cases rest with
    | nil =>
      simp at he
      intro x hx
      rw [List.mem_singleton] at hx
      rw [hx, he]
      exact hrefl _
    | cons b tl =>
      have he' : (b :: tl).getLast? = some e := by
        rw [List.getLast?_cons_cons] at he
        exact he
      have hp' : (b :: tl).Pairwise R := (List.pairwise_cons.mp hp).2
      intro x hx
      rcases List.mem_cons.mp hx with hx | hx
      · have hmem : e ∈ b :: tl := List.mem_of_getLast?_eq_some he'
        rw [hx]
        exact (List.pairwise_cons.mp hp).1 e hmem
      · exact ih hp' he' x hx

theorem amLookup_buildRentByMonthFold (tenantHistory houseHistory : List RentHistoryEntry)
    (fallbackRent : ℚ) (months : List String) (acc : AMap) (m : String) :
    amLookup (months.foldl
      (fun acc month =>
        amSet acc month (resolveRent tenantHistory houseHistory fallbackRent month)) acc) m =
      if m ∈ months then some (resolveRent tenantHistory houseHistory fallbackRent m)
      else amLookup acc m := by
  induction months generalizing acc with
  | nil => simp
  | cons mo rest ih =>
    rw [List.foldl_cons, ih]
    by_cases hr : m ∈ rest
    · rw [if_pos hr, if_pos (List.mem_cons_of_mem _ hr)]
    · rw [if_neg hr]
      by_cases hmo : mo = m
      · rw [amLookup_amSet, if_pos hmo, hmo,
          if_pos (List.mem_cons_self m rest)]
      · have : ¬ m ∈ mo :: rest := by
          intro h
          rcases List.mem_cons.mp h with h | h
          · exact hmo h.symm
          · exact hr h
        rw [amLookup_amSet, if_neg hmo, if_neg this]

/--
C6: for every requested month, rent resolution returns the amount of the
last merged-timeline entry whose `effectiveDate` is on or before the first
day of the month (`month ++ "-01"`, string comparison); the chosen entry is
maximal in the timeline order (latest date; on date ties its priority is
highest, so whenever any qualifying non-house entry shares the maximal
date the chosen entry is non-house — a tenant override wins the tie); if
no entry qualifies, the fallback rent is returned.
-/
theorem buildRentByMonth_resolution (months : List String)
    (tenantHistory houseHistory : List RentHistoryEntry) (fallbackRent : ℚ)
    (m : String) (hm : m ∈ months) :
    (((buildEffectiveHistory tenantHistory houseHistory).filter
        (fun e => strLe e.effectiveDate (m ++ "-01"))).getLast? = none →
      amLookup (buildRentByMonth months tenantHistory houseHistory fallbackRent) m =
        some fallbackRent) ∧
    (∀ e, ((buildEffectiveHistory tenantHistory houseHistory).filter
        (fun e => strLe e.effectiveDate (m ++ "-01"))).getLast? = some e →
      amLookup (buildRentByMonth months tenantHistory houseHistory fallbackRent) m =
        some e.amount ∧
      (∀ e' ∈ (buildEffectiveHistory tenantHistory houseHistory).filter
          (fun e => strLe e.effectiveDate (m ++ "-01")), entryLe e' e) ∧
      ((∃ e' ∈ (buildEffectiveHistory tenantHistory houseHistory).filter
          (fun e => strLe e.effectiveDate (m ++ "-01")),
          e'.effectiveDate = e.effectiveDate ∧ e'.source ≠ RentSource.house) →
        e.source ≠ RentSource.house)) := by
  have hlook : amLookup (buildRentByMonth months tenantHistory houseHistory fallbackRent) m =
      some (resolveRent tenantHistory houseHistory fallbackRent m) := by
    rw [buildRentByMonth, amLookup_buildRentByMonthFold, if_pos hm]
  have hsorted : (buildEffectiveHistory tenantHistory houseHistory).Pairwise entryLe :=
    List.sorted_insertionSort entryLe _
  have hsortedf : ((buildEffectiveHistory tenantHistory houseHistory).filter
      (fun e => strLe e.effectiveDate (m ++ "-01"))).Pairwise entryLe :=
    hsorted.filter _
  have hrefl : ∀ x : RentHistoryEntry, entryLe x x := fun x => Or.inr ⟨rfl, le_refl _⟩
  constructor
  · intro hnone
    rw [hlook]
    unfold resolveRent
    rw [hnone]
  · intro e he
    have hmax : ∀ e' ∈ (buildEffectiveHistory tenantHistory houseHistory).filter
        (fun e => strLe e.effectiveDate (m ++ "-01")), entryLe e' e :=
      pairwise_getLast hrefl hsortedf he
    refine ⟨?_, hmax, ?_⟩
    · rw [hlook]
      unfold resolveRent
      rw [he]
    · rintro ⟨e', he', hdate, hsrc⟩
      have hle : entryLe e' e := hmax e' he'
      rcases hle with hlt | ⟨_, hp⟩
      · rw [hdate] at hlt
        rcases strLt_true_iff.mp hlt with ⟨h1, h2⟩
        rw [h1] at h2
        exact absurd h2 (by simp)
      · have hp' : entryPriority e' = 1 := by
          unfold entryPriority
          rw [if_neg hsrc]
        rw [hp'] at hp
        intro hhouse
        have : entryPriority e = 0 := by
          unfold entryPriority
          rw [if_pos hhouse]
        rw [this] at hp
        exact absurd hp (by norm_num)

/-- Histories used by the resolution witness: a house rate and a same-date
tenant override. -/
def histH : List RentHistoryEntry :=
  [{ effectiveDate := "2024-01-01", amount := 1000, source := RentSource.house }]

def histT : List RentHistoryEntry :=
  [{ effectiveDate := "2024-01-01", amount := 1200, source := RentSource.override }]

/--
C6 (witness): the resolution theorem applied to a concrete month and
histories.
-/
theorem buildRentByMonth_resolution_witness :
    ("2024-01" ∈ ["2024-01"]) ∧
    ((((buildEffectiveHistory histT histH).filter
        (fun e => strLe e.effectiveDate ("2024-01" ++ "-01"))).getLast? = none →
      amLookup (buildRentByMonth ["2024-01"] histT histH 500) "2024-01" = some 500) ∧
    (∀ e, ((buildEffectiveHistory histT histH).filter
        (fun e => strLe e.effectiveDate ("2024-01" ++ "-01"))).getLast? = some e →
      amLookup (buildRentByMonth ["2024-01"] histT histH 500) "2024-01" = some e.amount ∧
      (∀ e' ∈ (buildEffectiveHistory histT histH).filter
          (fun e => strLe e.effectiveDate ("2024-01" ++ "-01")), entryLe e' e) ∧
      ((∃ e' ∈ (buildEffectiveHistory histT histH).filter
          (fun e => strLe e.effectiveDate ("2024-01" ++ "-01")),
          e'.effectiveDate = e.effectiveDate ∧ e'.source ≠ RentSource.house) →
        e.source ≠ RentSource.house))) :=
  ⟨by decide, buildRentByMonth_resolution ["2024-01"] histT histH 500 "2024-01" (by decide)⟩

/-- One row of the client allocation preview. -/
structure AllocationLine where
  month : String
  expected : ℚ
  paid : ℚ
  remaining : ℚ
  applied : ℚ
deriving DecidableEq

/-- The client allocation preview result. -/
structure AllocationPreview where
  totalApplied : ℚ
  lines : List AllocationLine
deriving DecidableEq

/-- The `months.map` closure of `previewAllocation`, threading the mutable
`remainingPayment`. -/
def previewLines (paidByMonth rentByMonth : AMap) :
    List String → ℚ → List AllocationLine × ℚ
  | [], remainingPayment => ([], remainingPayment)
  | month :: rest, remainingPayment =>
    let paid := amGet paidByMonth month
    let rent := amGet rentByMonth month
    let remaining := max (rent - paid) 0
    let applied := min remaining remainingPayment
    let next := previewLines paidByMonth rentByMonth rest (remainingPayment - applied)
    (⟨month, rent, paid, remaining, applied⟩ :: next.1, next.2)

/-- `previewAllocation({amount, months, paidByMonth, rentByMonth})` from the
client helper. -/
def previewAllocation (amount : ℚ) (months : List String) (paidByMonth rentByMonth : AMap) :
    AllocationPreview :=
  ⟨amount - (previewLines paidByMonth rentByMonth months amount).2,
   (previewLines paidByMonth rentByMonth months amount).1⟩

/-- `Object.fromEntries`: later entries overwrite earlier ones. -/
def fromEntries (entries : List (String × ℚ)) : AMap :=
  entries.foldl (fun acc kv => amSet acc kv.1 kv.2) []

theorem previewLines_eq (paidByMonth rentByMonth : AMap) (month : String) (rest : List String)
    (rem : ℚ) :
    previewLines paidByMonth rentByMonth (month :: rest) rem =
      (⟨month, amGet rentByMonth month, amGet paidByMonth month,
          max (amGet rentByMonth month - amGet paidByMonth month) 0,
          min (max (amGet rentByMonth month - amGet paidByMonth month) 0) rem⟩ ::
        (previewLines paidByMonth rentByMonth rest
          (rem - min (max (amGet rentByMonth month - amGet paidByMonth month) 0) rem)).1,
       (previewLines paidByMonth rentByMonth rest
          (rem - min (max (amGet rentByMonth month - amGet paidByMonth month) 0) rem)).2) :=
  rfl

theorem preview_allocate_fold (paidByMonth rentByMonth : AMap) (months : List String)
    (acc : AMap) (rem : ℚ) (h : 0 ≤ rem) :
    months.foldl (allocStep paidByMonth rentByMonth) (acc, rem) =
      ((((previewLines paidByMonth rentByMonth months rem).1.filter
          (fun l => decide (0 < l.applied))).map
        (fun l => (l.month, l.applied))).foldl (fun a kv => amSet a kv.1 kv.2) acc,
       (previewLines paidByMonth rentByMonth months rem).2) := by
  induction months generalizing acc rem with
  | nil => rfl
  | cons month rest ih =>
    rw [List.foldl_cons, previewLines_eq]
    have hdue : (0 : ℚ) ≤ max (amGet rentByMonth month - amGet paidByMonth month) 0 :=
      le_max_right _ _
    by_cases hg1 : rem ≤ 0
    · have hrem0 : rem = 0 := le_antisymm hg1 h
      have happ0 : min (max (amGet rentByMonth month - amGet paidByMonth month) 0) rem = 0 := by
        rw [hrem0]
        exact min_eq_right hdue
      have hstep : allocStep paidByMonth rentByMonth (acc, rem) month = (acc, rem) := by
        unfold allocStep
        rw [if_pos hg1]
      rw [hstep, ih acc rem h]
      simp only [happ0, List.filter_cons]
      rw [if_neg (by simp)]
      rw [hrem0]
      rw [sub_zero]
    · push_neg at hg1
      by_cases hg2 : max (amGet rentByMonth month - amGet paidByMonth month) 0 ≤ 0
      · have hdue0 : max (amGet rentByMonth month - amGet paidByMonth month) 0 = 0 :=
          le_antisymm hg2 hdue
        have happ0 : min (max (amGet rentByMonth month - amGet paidByMonth month) 0) rem = 0 := by
          rw [hdue0]
          exact min_eq_left h
        have hstep : allocStep paidByMonth rentByMonth (acc, rem) month = (acc, rem) := by
          unfold allocStep
          rw [if_neg (not_le.mpr hg1)]
          simp only
          rw [if_pos hg2]
        rw [hstep, ih acc rem h]
        simp only [happ0, List.filter_cons]
        rw [if_neg (by simp)]
        rw [sub_zero]
      · push_neg at hg2
        have happos : 0 < min (max (amGet rentByMonth month - amGet paidByMonth month) 0) rem :=
          lt_min hg2 hg1
        have hstep : allocStep paidByMonth rentByMonth (acc, rem) month =
            (amSet acc month
              (min (max (amGet rentByMonth month - amGet paidByMonth month) 0) rem),
             rem - min (max (amGet rentByMonth month - amGet paidByMonth month) 0) rem) := by
          unfold allocStep
          rw [if_neg (not_le.mpr hg1)]
          simp only
          rw [if_neg (not_le.mpr hg2)]
        have hrem' : 0 ≤ rem - min (max (amGet rentByMonth month - amGet paidByMonth month) 0) rem := by
          have : min (max (amGet rentByMonth month - amGet paidByMonth month) 0) rem ≤ rem :=
            min_le_right _ _
          linarith
        rw [hstep, ih _ _ hrem']
        simp only [List.filter_cons]
        rw [if_pos (by simpa using happos)]
        rw [List.map_cons, List.foldl_cons]

/--
C10: for a non-negative amount the client preview and the server allocator
agree: the object built from the preview lines with `applied > 0`
(`Object.fromEntries` as in `handlePreview`) is exactly `allocatePayment`'s
allocation object, and `allocatePayment`'s remaining is the amount minus
the preview's `totalApplied`.
-/
theorem preview_agrees (amount : ℚ) (months : List String) (paidByMonth rentByMonth : AMap)
    (h : 0 ≤ amount) :
    fromEntries (((previewAllocation amount months paidByMonth rentByMonth).lines.filter
        (fun l => decide (0 < l.applied))).map (fun l => (l.month, l.applied))) =
      (allocatePayment amount months paidByMonth rentByMonth).1 ∧
    (allocatePayment amount months paidByMonth rentByMonth).2 =
      amount - (previewAllocation amount months paidByMonth rentByMonth).totalApplied := by
  have hfold := preview_allocate_fold paidByMonth rentByMonth months [] amount h
  constructor
  · rw [allocatePayment, hfold]
    rfl
  · rw [allocatePayment, hfold]
    show (previewLines paidByMonth rentByMonth months amount).2 =
      amount - (amount - (previewLines paidByMonth rentByMonth months amount).2)
    ring

/--
C10 (witness): agreement at Scenario A's inputs (2500 against three months
of rent 1000).
-/
theorem preview_agrees_witness :
    fromEntries (((previewAllocation 2500 ["2024-01", "2024-02", "2024-03"] []
        [("2024-01", 1000), ("2024-02", 1000), ("2024-03", 1000)]).lines.filter
        (fun l => decide (0 < l.applied))).map (fun l => (l.month, l.applied))) =
      (allocatePayment 2500 ["2024-01", "2024-02", "2024-03"] []
        [("2024-01", 1000), ("2024-02", 1000), ("2024-03", 1000)]).1 ∧
    (allocatePayment 2500 ["2024-01", "2024-02", "2024-03"] []
        [("2024-01", 1000), ("2024-02", 1000), ("2024-03", 1000)]).2 =
      2500 - (previewAllocation 2500 ["2024-01", "2024-02", "2024-03"] []
        [("2024-01", 1000), ("2024-02", 1000), ("2024-03", 1000)]).totalApplied :=
  preview_agrees 2500 ["2024-01", "2024-02", "2024-03"] []
    [("2024-01", 1000), ("2024-02", 1000), ("2024-03", 1000)] (by decide)
